import Mathlib

/-!
Verification of the `xw` crossword library (`src/puzzle.rs`, `src/lexicon.rs`).

The grid is a rectangular matrix of squares; a square is `none` (blocked, `'.'`
in the text format) or `some c` (open, holding the character `c`), mirroring
`type Square = Option<char>` in the source.  Strings are modelled as `List Char`
(their codepoints); the UTF-8 byte length of a character is modelled by
`charSize`, mirroring `char::len_utf8`.
-/

abbrev Square := Option Char

/-- Grid of squares, row-major, mirroring `ndarray::Array2<Square>` (always
rectangular; the parser only ever produces rectangular grids). -/
abbrev GridT := List (List Square)

/-- Number of columns of a grid (the length of its first row, as in the
rectangular `Array2` the parser builds). -/
def gcols (g : GridT) : Nat := (g.headD []).length

/-- Row `k` of the grid, as `grid.rows()` yields it. -/
def rowOf (g : GridT) (k : Nat) : List Square := g.getD k []

/-- Column `k` of the grid, as `grid.columns()` yields it. -/
def colOf (g : GridT) (k : Nat) : List Square := g.map (fun row => row.getD k none)

/-- Mirrors `struct SlotCoords { r: Range<usize>, k: usize }`: the half-open
range `[start, stop)` along the scan axis and the row/column index `k`. -/
structure SlotCoords where
  start : Nat
  stop : Nat
  k : Nat
deriving DecidableEq

/-- Structural helper for `skipBlocked`: walk the suffix of the line that
starts at absolute position `i`, advancing past blocked squares. -/
def skipBlockedFrom : List Square → Nat → Nat
  | [], i => i
  | none :: rest, i => skipBlockedFrom rest (i + 1)
  | some _ :: _, i => i

/-- Mirrors the inner loop `while start < rowcol.len() && rowcol[start].is_none()
\x7b start += 1; \x7d` of `Puzzle::identify_slots`: advance the cursor past
blocked squares (`skipBlocked_eq` recovers the loop-shaped unfolding). -/
def skipBlocked (line : List Square) (i : Nat) : Nat :=
  skipBlockedFrom (line.drop i) i

/-- Structural helper for `skipOpen`. -/
def skipOpenFrom : List Square → Nat → Nat
  | [], i => i
  | none :: _, i => i
  | some _ :: rest, i => skipOpenFrom rest (i + 1)

/-- Mirrors the loop `while stop < rowcol.len() && !rowcol[stop].is_none()
\x7b stop += 1; \x7d` of `Puzzle::identify_slots`: advance the cursor past
open squares (`skipOpen_eq` recovers the loop-shaped unfolding). -/
def skipOpen (line : List Square) (i : Nat) : Nat :=
  skipOpenFrom (line.drop i) i

theorem getD_drop {α} (l : List α) (i j : Nat) (d : α) :
    (l.drop i).getD j d = l.getD (i + j) d := by
  rw [List.getD_eq_getElem?_getD, List.getD_eq_getElem?_getD, List.getElem?_drop]

/-- Loop-shaped unfolding of `skipBlocked`, matching the source's `while`. -/
theorem skipBlocked_eq (line : List Square) (i : Nat) :
    skipBlocked line i =
      if i < line.length then
        (if line.getD i none = none then skipBlocked line (i + 1) else i)
      else i := by
  unfold skipBlocked
  cases hd : line.drop i with
  | nil =>
    rw [List.drop_eq_nil_iff] at hd
    rw [if_neg (by omega)]
    rfl
  | cons x rest =>
    have hlen : i < line.length := by
      by_contra hge
      rw [List.drop_eq_nil_iff.2 (by omega)] at hd
      cases hd
    have hd2 := List.drop_eq_getElem_cons hlen
    rw [hd] at hd2
    rcases List.cons.inj hd2 with ⟨hx, hrest⟩
    have hgd : line.getD i none = x := by
      rw [List.getD_eq_getElem?_getD, List.getElem?_eq_getElem hlen, Option.getD_some, hx]
    rw [if_pos hlen, hgd, ← hrest]
    cases x with
    | none =>
      rw [if_pos rfl]
      rfl
    | some c =>
      rw [if_neg (by simp)]
      rfl

/-- Loop-shaped unfolding of `skipOpen`, matching the source's `while`. -/
theorem skipOpen_eq (line : List Square) (i : Nat) :
    skipOpen line i =
      if i < line.length then
        (if line.getD i none ≠ none then skipOpen line (i + 1) else i)
      else i := by
  unfold skipOpen
  cases hd : line.drop i with
  | nil =>
    rw [List.drop_eq_nil_iff] at hd
    rw [if_neg (by omega)]
    rfl
  | cons x rest =>
    have hlen : i < line.length := by
      by_contra hge
      rw [List.drop_eq_nil_iff.2 (by omega)] at hd
      cases hd
    have hd2 := List.drop_eq_getElem_cons hlen
    rw [hd] at hd2
    rcases List.cons.inj hd2 with ⟨hx, hrest⟩
    have hgd : line.getD i none = x := by
      rw [List.getD_eq_getElem?_getD, List.getElem?_eq_getElem hlen, Option.getD_some, hx]
    rw [if_pos hlen, hgd, ← hrest]
    cases x with
    | none =>
      rw [if_neg (by simp)]
      rfl
    | some c =>
      rw [if_pos (by simp)]
      rfl

theorem le_skipBlockedFrom : ∀ (l : List Square) (i : Nat), i ≤ skipBlockedFrom l i := by
  intro l
  induction l with
  | nil => intro i; exact Nat.le_refl i
  | cons x rest ih =>
    intro i
    cases x with
    | none => exact Nat.le_trans (Nat.le_succ i) (ih (i + 1))
    | some c => exact Nat.le_refl i

theorem skipBlockedFrom_le : ∀ (l : List Square) (i : Nat),
    skipBlockedFrom l i ≤ i + l.length := by
  intro l
  induction l with
  | nil => intro i; simp [skipBlockedFrom]
  | cons x rest ih =>
    intro i
    cases x with
    | none =>
      have := ih (i + 1)
      simp only [skipBlockedFrom, List.length_cons]
      omega
    | some c => simp [skipBlockedFrom]

theorem skipBlockedFrom_mid : ∀ (l : List Square) (i t : Nat),
    t < skipBlockedFrom l i - i → l.getD t none = none := by
  intro l
  induction l with
  | nil =>
    intro i t ht
    simp only [skipBlockedFrom] at ht
    omega
  | cons x rest ih =>
    intro i t ht
    cases x with
    | none =>
      have hge := le_skipBlockedFrom rest (i + 1)
      simp only [skipBlockedFrom] at ht
      cases t with
      | zero => rfl
      | succ t2 =>
        have := ih (i + 1) t2 (by omega)
        simpa using this
    | some c =>
      simp only [skipBlockedFrom] at ht
      omega

theorem skipBlockedFrom_result : ∀ (l : List Square) (i : Nat),
    skipBlockedFrom l i < i + l.length →
    l.getD (skipBlockedFrom l i - i) none ≠ none := by
  intro l
  induction l with
  | nil =>
    intro i h
    simp only [skipBlockedFrom, List.length_nil] at h
    omega
  | cons x rest ih =>
    intro i h
    cases x with
    | none =>
      have hge := le_skipBlockedFrom rest (i + 1)
      simp only [skipBlockedFrom, List.length_cons] at h ⊢
      have := ih (i + 1) (by omega)
      have harith : skipBlockedFrom rest (i + 1) - i = (skipBlockedFrom rest (i + 1) - (i + 1)) + 1 := by
        omega
      rw [harith]
      simpa using this
    | some c =>
      simp [skipBlockedFrom]

theorem le_skipOpenFrom : ∀ (l : List Square) (i : Nat), i ≤ skipOpenFrom l i := by
  intro l
  induction l with
  | nil => intro i; exact Nat.le_refl i
  | cons x rest ih =>
    intro i
    cases x with
    | none => exact Nat.le_refl i
    | some c => exact Nat.le_trans (Nat.le_succ i) (ih (i + 1))

theorem skipOpenFrom_le : ∀ (l : List Square) (i : Nat),
    skipOpenFrom l i ≤ i + l.length := by
  intro l
  induction l with
  | nil => intro i; simp [skipOpenFrom]
  | cons x rest ih =>
    intro i
    cases x with
    | none => simp [skipOpenFrom]
    | some c =>
      have := ih (i + 1)
      simp only [skipOpenFrom, List.length_cons]
      omega

theorem skipOpenFrom_mid : ∀ (l : List Square) (i t : Nat),
    t < skipOpenFrom l i - i → l.getD t none ≠ none := by
  intro l
  induction l with
  | nil =>
    intro i t ht
    simp only [skipOpenFrom] at ht
    omega
  | cons x rest ih =>
    intro i t ht
    cases x with
    | none =>
      simp only [skipOpenFrom] at ht
      omega
    | some c =>
      have hge := le_skipOpenFrom rest (i + 1)
      simp only [skipOpenFrom] at ht
      cases t with
      | zero => simp
      | succ t2 =>
        have := ih (i + 1) t2 (by omega)
        simpa using this

theorem skipOpenFrom_result : ∀ (l : List Square) (i : Nat),
    skipOpenFrom l i < i + l.length →
    l.getD (skipOpenFrom l i - i) none = none := by
  intro l
  induction l with
  | nil =>
    intro i h
    simp only [skipOpenFrom, List.length_nil] at h
    omega
  | cons x rest ih =>
    intro i h
    cases x with
    | none => simp [skipOpenFrom]
    | some c =>
      have hge := le_skipOpenFrom rest (i + 1)
      simp only [skipOpenFrom, List.length_cons] at h ⊢
      have := ih (i + 1) (by omega)
      have harith : skipOpenFrom rest (i + 1) - i = (skipOpenFrom rest (i + 1) - (i + 1)) + 1 := by
        omega
      rw [harith]
      simpa using this

theorem le_skipBlocked (line : List Square) (i : Nat) : i ≤ skipBlocked line i :=
  le_skipBlockedFrom (line.drop i) i

theorem le_skipOpen (line : List Square) (i : Nat) : i ≤ skipOpen line i :=
  le_skipOpenFrom (line.drop i) i

/-- Fuel-driven body of the outer `while stop < rowcol.len()` loop of
`Puzzle::identify_slots`; the fuel only forces termination and never runs out
as seeded by `scanFrom` (`scanFrom_eq` recovers the loop-shaped unfolding). -/
def scanGo : Nat → List Square → Nat → List (Nat × Nat)
  | 0, _, _ => []
  | fuel + 1, line, cur =>
    if cur < line.length then
      (if skipBlocked line cur = skipOpen line (skipBlocked line cur) then []
       else [(skipBlocked line cur, skipOpen line (skipBlocked line cur))]) ++
        scanGo fuel line (skipOpen line (skipBlocked line cur) + 1)
    else []

/-- Mirrors the outer `while stop < rowcol.len()` loop of
`Puzzle::identify_slots` for a single row or column: starting from cursor
`cur`, emit the `(start, stop)` pairs of every maximal run of open squares. -/
def scanFrom (line : List Square) (cur : Nat) : List (Nat × Nat) :=
  scanGo (line.length + 1 - cur) line cur

theorem scanGo_congr : ∀ (f1 f2 : Nat) (line : List Square) (cur : Nat),
    line.length + 1 - cur ≤ f1 → line.length + 1 - cur ≤ f2 →
    scanGo f1 line cur = scanGo f2 line cur := by
  intro f1
  induction f1 with
  | zero =>
    intro f2 line cur h1 h2
    cases f2 with
    | zero => rfl
    | succ n =>
      simp only [scanGo]
      rw [if_neg (by omega)]
  | succ m ih =>
    intro f2 line cur h1 h2
    cases f2 with
    | zero =>
      simp only [scanGo]
      rw [if_neg (by omega)]
    | succ n =>
      simp only [scanGo]
      by_cases h : cur < line.length
      · rw [if_pos h, if_pos h]
        have hle1 := le_skipBlocked line cur
        have hle2 := le_skipOpen line (skipBlocked line cur)
        rw [ih n line (skipOpen line (skipBlocked line cur) + 1) (by omega) (by omega)]
      · rw [if_neg h, if_neg h]

/-- Loop-shaped unfolding of `scanFrom`, matching the source's outer `while`. -/
theorem scanFrom_eq (line : List Square) (cur : Nat) :
    scanFrom line cur =
      if cur < line.length then
        (if skipBlocked line cur = skipOpen line (skipBlocked line cur) then []
         else [(skipBlocked line cur, skipOpen line (skipBlocked line cur))]) ++
          scanFrom line (skipOpen line (skipBlocked line cur) + 1)
      else [] := by
  unfold scanFrom
  by_cases h : cur < line.length
  · rw [if_pos h]
    have hf : line.length + 1 - cur = (line.length - cur) + 1 := by omega
    rw [hf]
    simp only [scanGo]
    rw [if_pos h]
    have hle1 := le_skipBlocked line cur
    have hle2 := le_skipOpen line (skipBlocked line cur)
    rw [scanGo_congr (line.length - cur)
      (line.length + 1 - (skipOpen line (skipBlocked line cur) + 1)) line
      (skipOpen line (skipBlocked line cur) + 1) (by omega) (by omega)]
  · rw [if_neg h]
    cases hf : line.length + 1 - cur with
    | zero => rfl
    | succ n =>
      simp only [scanGo]
      rw [if_neg h]

/-- Slots of one row/column, tagged with its index `k` (the pushes
`slots.push(SlotCoords \x7b r: start..stop, k \x7d)` of the source). -/
def lineSlots (line : List Square) (k : Nat) : List SlotCoords :=
  (scanFrom line 0).map (fun st => ⟨st.1, st.2, k⟩)

/-- Mirrors `Puzzle::identify_slots`, returning `(acrosses, downs)`: rows are
scanned top-to-bottom for acrosses, columns left-to-right for downs. -/
def identify_slots (g : GridT) : List SlotCoords × List SlotCoords :=
  (((List.range g.length).map (fun k => lineSlots (rowOf g k) k)).flatten,
   ((List.range (gcols g)).map (fun k => lineSlots (colOf g k) k)).flatten)

/-- Mirrors `pub struct Puzzle \x7b grid, downs, acrosses \x7d`. -/
structure Puzzle where
  grid : GridT
  acrosses : List SlotCoords
  downs : List SlotCoords
deriving DecidableEq

def Puzzle.nacross (p : Puzzle) : Nat := p.acrosses.length

def Puzzle.ndown (p : Puzzle) : Nat := p.downs.length

def Puzzle.nslots (p : Puzzle) : Nat := p.nacross + p.ndown

/-- The contiguous segment `[start, stop)` of a row or column, i.e. the squares
of the ndarray slice `s![k, start..stop]` / `s![start..stop, k]`. -/
def sliceSeg (line : List Square) (start stop : Nat) : List Square :=
  (line.drop start).take (stop - start)

/-- Mirrors `Puzzle::access`: a read-only view of slot `i` (across slots first,
then down slots).  The source's `panic!("The index is too large!")` branch for
`i >= nslots` is modelled by `none`. -/
def Puzzle.access (p : Puzzle) (i : Nat) : Option (List Square) :=
  if i < p.nacross then
    let c := p.acrosses.getD i ⟨0, 0, 0⟩
    some (sliceSeg (rowOf p.grid c.k) c.start c.stop)
  else if i < p.nslots then
    let c := p.downs.getD (i - p.nacross) ⟨0, 0, 0⟩
    some (sliceSeg (colOf p.grid c.k) c.start c.stop)
  else none

/-- Mirrors `impl Index<usize> for Slot`: return the letter of an open square;
the panic branches (blocked square, or out-of-range position) are modelled by
`none`. -/
def Slot.index (sq : List Square) (j : Nat) : Option Char := sq.getD j none

/-- Mirrors `impl From<Slot> for String`: read a slot as its characters; the
panic on a blocked square is modelled by `none`. -/
def readSquares : List Square → Option (List Char)
  | [] => some []
  | none :: _ => none
  | some c :: rest => (readSquares rest).map (fun cs => c :: cs)

/-- UTF-8 byte length of one character, mirroring `char::len_utf8` (which
`str::len` and `str::char_indices` are built on). -/
def charSize (c : Char) : Nat :=
  if c.toNat ≤ 0x7F then 1
  else if c.toNat ≤ 0x7FF then 2
  else if c.toNat ≤ 0xFFFF then 3
  else 4

/-- UTF-8 byte length of a string, mirroring `str::len`. -/
def utf8Len (w : List Char) : Nat := (w.map charSize).sum

/-- Mirrors `str::char_indices` starting at byte offset `o`: each character
paired with its byte offset. -/
def charIndicesFrom (o : Nat) : List Char → List (Nat × Char)
  | [] => []
  | c :: rest => (o, c) :: charIndicesFrom (o + charSize c) rest

/-- Mirrors `value.char_indices()`. -/
def charIndices (value : List Char) : List (Nat × Char) := charIndicesFrom 0 value

/-- Replace element `n` of a list by `f` of it (out of range: unchanged);
used to update one row of the grid. -/
def updAt (l : List (List Square)) (n : Nat) (f : List Square → List Square) :
    List (List Square) :=
  match l, n with
  | [], _ => []
  | x :: xs, 0 => f x :: xs
  | x :: xs, m + 1 => x :: updAt xs m f

/-- Write square value `v` at grid position `(r, c)`. -/
def setCell (g : GridT) (r c : Nat) (v : Square) : GridT :=
  updAt g r (fun row => row.set c v)

/-- Mirrors the write loop `for (j, chr) in value.char_indices()
\x7b view[j] = Some(chr); \x7d` of `Puzzle::with_filled_slot`:  `cells j` is the
grid position the ndarray view maps offset `j` to, and `len` is the view's
length; an offset `j ≥ len` panics in ndarray, modelled by `none`. -/
def writeSquares (g : GridT) (cells : Nat → Nat × Nat) (len : Nat) :
    List (Nat × Char) → Option GridT
  | [] => some g
  | (j, ch) :: rest =>
    if j < len then
      writeSquares (setCell g (cells j).1 (cells j).2 (some ch)) cells len rest
    else none

/-- Mirrors `Puzzle::with_filled_slot`: the length-check panic
(`value doesn't have the correct length`), the out-of-range panic inside
`copy.access(i)`, and any out-of-range view write are all modelled by `none`. -/
def Puzzle.with_filled_slot (p : Puzzle) (i : Nat) (value : List Char) :
    Option Puzzle :=
  match p.access i with
  | none => none
  | some sq =>
    if value.length ≠ sq.length then none
    else if i < p.nacross then
      let c := p.acrosses.getD i ⟨0, 0, 0⟩
      (writeSquares p.grid (fun j => (c.k, c.start + j)) (c.stop - c.start)
        (charIndices value)).map (fun g => Puzzle.mk g p.acrosses p.downs)
    else
      let c := p.downs.getD (i - p.nacross) ⟨0, 0, 0⟩
      (writeSquares p.grid (fun j => (c.start + j, c.k)) (c.stop - c.start)
        (charIndices value)).map (fun g => Puzzle.mk g p.acrosses p.downs)

/-- Combining marks U+0300–U+036F, the `Extend`-class characters exercised by
this system (e.g. the grave accent of the multi-codepoint test grapheme). -/
def isExtendChar (c : Char) : Bool := 0x300 ≤ c.toNat && c.toNat ≤ 0x36F

/-- Structural helper for `graphemes`: `cur` is the current cluster in
reverse order; an `Extend` character joins it, anything else closes it and
starts a new cluster. -/
def graphemesAux (cur : List Char) : List Char → List (List Char)
  | [] => [cur.reverse]
  | c :: rest =>
    if isExtendChar c then graphemesAux (c :: cur) rest
    else cur.reverse :: graphemesAux [c] rest

/-- Extended grapheme cluster segmentation of the `unicode-segmentation`
crate, for the character repertoire this system exercises: a cluster is one
base codepoint followed by its combining marks; every other codepoint is a
cluster of its own.  (Rows never contain a newline, so the CR-LF rule never
applies inside a row.) -/
def graphemes : List Char → List (List Char)
  | [] => []
  | c :: rest => graphemesAux [c] rest

/-- Mirrors `s.split('\n')` of `Puzzle::parse`: split on the newline character;
adjacent/trailing newlines yield empty rows, and the result is never empty. -/
def splitNL : List Char → List (List Char)
  | [] => [[]]
  | c :: rest =>
    if c = '\n' then [] :: splitNL rest
    else
      match splitNL rest with
      | [] => [[c]]
      | r :: rs => (c :: r) :: rs

/-- Error kinds of `Puzzle::parse`.  The source reports them as `&'static str`
messages; `emptyGraphemeAbort` models the `unwrap` panic on an empty cluster,
which the segmentation never produces. -/
inductive ParseError where
  | rowTooShort
  | rowTooLong
  | multiCodepointGrapheme
  | emptyGraphemeAbort
deriving DecidableEq

/-- Mirrors `grid[[i, j]] = match chr \x7b '.' => None, other => Some(other) \x7d`. -/
def squareOfChar (c : Char) : Square := if c = '.' then none else some c

/-- Mirrors the inner row loop of `Puzzle::parse`: walk the graphemes of one
row with the column cursor `j`; `j` reaching `ncols` with a grapheme left is
`rowTooLong`, a cluster of two or more codepoints is `multiCodepointGrapheme`,
and finishing with `j ≠ ncols` is `rowTooShort`. -/
def fillRow (ncols : Nat) : List (List Char) → Nat → Except ParseError (List Square)
  | [], j => if j = ncols then .ok [] else .error .rowTooShort
  | g :: rest, j =>
    if j = ncols then .error .rowTooLong
    else
      match g with
      | [] => .error .emptyGraphemeAbort
      | [c] =>
        match fillRow ncols rest (j + 1) with
        | .ok sq => .ok (squareOfChar c :: sq)
        | .error e => .error e
      | _ :: _ :: _ => .error .multiCodepointGrapheme

/-- Mirrors the row loop `for i in 0..nrows` of `Puzzle::parse`: rows are
processed top to bottom and the first error aborts everything. -/
def parseRows (ncols : Nat) : List (List Char) → Except ParseError GridT
  | [] => .ok []
  | r :: rest =>
    match fillRow ncols (graphemes r) 0 with
    | .error e => .error e
    | .ok sq =>
      match parseRows ncols rest with
      | .error e => .error e
      | .ok g => .ok (sq :: g)

/-- Mirrors `Puzzle::parse`: split on newlines, fix `ncols` to the first row's
grapheme count, fill the grid row by row, then identify the slots. -/
def parse (s : List Char) : Except ParseError Puzzle :=
  let v := splitNL s
  let ncols := (graphemes (v.headD [])).length
  match parseRows ncols v with
  | .error e => .error e
  | .ok g =>
    let slots := identify_slots g
    .ok (Puzzle.mk g slots.1 slots.2)

/-- Mirrors `char::to_ascii_uppercase`: subtract 32 from the codepoint of an
ASCII lowercase letter (`97 ≤ code ≤ 122`), leave anything else unchanged. -/
def asciiUpper (c : Char) : Char :=
  if 97 ≤ c.toNat ∧ c.toNat ≤ 122 then Char.ofNat (c.toNat - 32) else c

/-- Append word `w` to bucket `n` of the by-length buckets, mirroring
`words_by_length[word.len()].push(word)` (in-range by construction). -/
def appendAt : List (List (List Char)) → Nat → List Char → List (List (List Char))
  | [], _, _ => []
  | b :: bs, 0, w => (b ++ [w]) :: bs
  | b :: bs, n + 1, w => b :: appendAt bs n w

/-- Mirrors `char::is_ascii`: codepoint at most `0x7F`. -/
def isAsciiChar (c : Char) : Bool := c.toNat ≤ 0x7F

/-- One step of the `for word in words` loop of `Lexicon::from_words`: skip
non-ASCII words, uppercase, and push into the byte-length bucket. -/
def lexStep (bs : List (List (List Char))) (w : List Char) : List (List (List Char)) :=
  if w.all isAsciiChar then
    appendAt bs (utf8Len (w.map asciiUpper)) (w.map asciiUpper)
  else bs

/-- Mirrors `pub struct Lexicon \x7b words, empty_set \x7d`. -/
structure Lexicon where
  words : List (List (List Char))
  empty_set : List (List Char)
deriving DecidableEq

/-- Mirrors `Lexicon::from_words`: `max_length` is the maximum byte length over
all input words, the buckets are seeded empty, then each ASCII word is
uppercased and pushed into the bucket of its byte length. -/
def Lexicon.from_words (ws : List (List Char)) : Lexicon :=
  ⟨ws.foldl lexStep (List.replicate ((ws.map utf8Len).foldr max 0 + 1) []), []⟩

/-- Mirrors `Lexicon::words_by_length`: the bucket for `len`, or the empty set
when no such bucket exists. -/
def Lexicon.words_by_length (lex : Lexicon) (len : Nat) : List (List Char) :=
  if lex.words.length ≤ len then lex.empty_set else lex.words.getD len []

/-- Mirrors the match loop of `Lexicon::possible_answers` over a slot view and
one word: a slot position holding `' '` matches anything, any other position
must satisfy `slot[i].to_ascii_uppercase() == c`.  The `[], _ :: _` case is the
source's out-of-range `slot[i]` abort, unreachable for length-bucketed
lexicons (the bucket invariant is proven below). -/
def answerMatch : List Char → List Char → Bool
  | _, [] => true
  | [], _ :: _ => true
  | s :: ss, c :: cs =>
    if s ≠ ' ' ∧ asciiUpper s ≠ c then false else answerMatch ss cs

/-- Mirrors `Lexicon::possible_answers`: filter the bucket of the slot's
length by the positional match (a slot view always holds open squares, so it
is passed here as its character list). -/
def Lexicon.possible_answers (lex : Lexicon) (slot : List Char) : List (List Char) :=
  (lex.words_by_length slot.length).filter (fun w => answerMatch slot w)

/-- Transcribes the spec's matching rule (§4.4) verbatim, for comparison with
the source-derived `answerMatch`: the word has the slot's length, and at every
position the slot either holds the blank marker or agrees with the word's
character case-insensitively. -/
def specMatch (slot word : List Char) : Bool :=
  slot.length == word.length &&
  (List.zip slot word).all (fun p => p.1 == ' ' || asciiUpper p.1 == asciiUpper p.2)

/-! ### Basic facts about the scanners -/

theorem skipBlocked_le_length (line : List Square) (i : Nat) :
    i ≤ line.length → skipBlocked line i ≤ line.length := by
  intro h
  have hle := skipBlockedFrom_le (line.drop i) i
  rw [List.length_drop] at hle
  unfold skipBlocked
  omega

theorem skipOpen_le_length (line : List Square) (i : Nat) :
    i ≤ line.length → skipOpen line i ≤ line.length := by
  intro h
  have hle := skipOpenFrom_le (line.drop i) i
  rw [List.length_drop] at hle
  unfold skipOpen
  omega

theorem skipBlocked_mid (line : List Square) (i : Nat) :
    ∀ j, i ≤ j → j < skipBlocked line i → line.getD j none = none := by
  intro j hij hlt
  have hm := skipBlockedFrom_mid (line.drop i) i (j - i)
    (by unfold skipBlocked at hlt; omega)
  rw [getD_drop] at hm
  rwa [show i + (j - i) = j by omega] at hm

theorem skipBlocked_result (line : List Square) (i : Nat) :
    skipBlocked line i < line.length → line.getD (skipBlocked line i) none ≠ none := by
  intro h
  have hge := le_skipBlockedFrom (line.drop i) i
  by_cases hi : i ≤ line.length
  · have hr := skipBlockedFrom_result (line.drop i) i
      (by rw [List.length_drop]; unfold skipBlocked at h; omega)
    rw [getD_drop] at hr
    unfold skipBlocked at h ⊢
    rwa [show i + (skipBlockedFrom (line.drop i) i - i) = skipBlockedFrom (line.drop i) i
      by omega] at hr
  · exfalso
    unfold skipBlocked at h
    rw [List.drop_eq_nil_iff.2 (by omega)] at h
    simp only [skipBlockedFrom] at h
    omega

theorem skipOpen_mid (line : List Square) (i : Nat) :
    ∀ j, i ≤ j → j < skipOpen line i → line.getD j none ≠ none := by
  intro j hij hlt
  have hm := skipOpenFrom_mid (line.drop i) i (j - i)
    (by unfold skipOpen at hlt; omega)
  rw [getD_drop] at hm
  rwa [show i + (j - i) = j by omega] at hm

theorem skipOpen_result (line : List Square) (i : Nat) :
    skipOpen line i < line.length → line.getD (skipOpen line i) none = none := by
  intro h
  have hge := le_skipOpenFrom (line.drop i) i
  by_cases hi : i ≤ line.length
  · have hr := skipOpenFrom_result (line.drop i) i
      (by rw [List.length_drop]; unfold skipOpen at h; omega)
    rw [getD_drop] at hr
    unfold skipOpen at h ⊢
    rwa [show i + (skipOpenFrom (line.drop i) i - i) = skipOpenFrom (line.drop i) i
      by omega] at hr
  · exfalso
    unfold skipOpen at h
    rw [List.drop_eq_nil_iff.2 (by omega)] at h
    simp only [skipOpenFrom] at h
    omega

theorem scanFrom_mem (line : List Square) (cur : Nat) :
    ∀ st ∈ scanFrom line cur,
      cur ≤ st.1 ∧ st.1 < st.2 ∧ st.2 ≤ line.length ∧
      (∀ j, st.1 ≤ j → j < st.2 → line.getD j none ≠ none) ∧
      (st.2 = line.length ∨ line.getD st.2 none = none) := by
  suffices H : ∀ (fuel cur2 : Nat), line.length + 1 - cur2 ≤ fuel →
      ∀ st ∈ scanFrom line cur2,
        cur2 ≤ st.1 ∧ st.1 < st.2 ∧ st.2 ≤ line.length ∧
        (∀ j, st.1 ≤ j → j < st.2 → line.getD j none ≠ none) ∧
        (st.2 = line.length ∨ line.getD st.2 none = none) by
    exact H (line.length + 1) cur (by omega)
  intro fuel
  induction fuel with
  | zero =>
    intro cur2 hf st hst
    rw [scanFrom_eq, if_neg (by omega)] at hst
    exact absurd hst (List.not_mem_nil st)
  | succ n ihn =>
    intro cur2 hf st hst
    rw [scanFrom_eq] at hst
    by_cases h : cur2 < line.length
    · rw [if_pos h] at hst
      have h1le := le_skipBlocked line cur2
      have h2le := le_skipOpen line (skipBlocked line cur2)
      have hsl : skipBlocked line cur2 ≤ line.length :=
        skipBlocked_le_length line cur2 (Nat.le_of_lt h)
      have hol : skipOpen line (skipBlocked line cur2) ≤ line.length :=
        skipOpen_le_length line (skipBlocked line cur2) hsl
      rcases List.mem_append.1 hst with h1 | h2
      · by_cases he : skipBlocked line cur2 = skipOpen line (skipBlocked line cur2)
        · rw [if_pos he] at h1
          exact absurd h1 (List.not_mem_nil st)
        · rw [if_neg he] at h1
          rcases List.mem_singleton.1 h1 with rfl
          refine ⟨h1le, by omega, hol, ?_, ?_⟩
          · exact fun j hj1 hj2 => skipOpen_mid line (skipBlocked line cur2) j hj1 hj2
          · rcases Nat.lt_or_ge (skipOpen line (skipBlocked line cur2)) line.length
              with hlt | hge2
            · exact Or.inr (skipOpen_result line (skipBlocked line cur2) hlt)
            · exact Or.inl (Nat.le_antisymm hol hge2)
      · have hrec := ihn (skipOpen line (skipBlocked line cur2) + 1) (by omega) st h2
        exact ⟨by omega, hrec.2.1, hrec.2.2.1, hrec.2.2.2.1, hrec.2.2.2.2⟩
    · rw [if_neg h] at hst
      exact absurd hst (List.not_mem_nil st)

theorem scanFrom_left (line : List Square) (cur : Nat) :
    (cur = 0 ∨ line.length < cur ∨ line.getD (cur - 1) none = none) →
    ∀ st ∈ scanFrom line cur, st.1 = 0 ∨ line.getD (st.1 - 1) none = none := by
  suffices H : ∀ (fuel cur2 : Nat), line.length + 1 - cur2 ≤ fuel →
      (cur2 = 0 ∨ line.length < cur2 ∨ line.getD (cur2 - 1) none = none) →
      ∀ st ∈ scanFrom line cur2, st.1 = 0 ∨ line.getD (st.1 - 1) none = none by
    exact H (line.length + 1) cur (by omega)
  intro fuel
  induction fuel with
  | zero =>
    intro cur2 hf hpre st hst
    rw [scanFrom_eq, if_neg (by omega)] at hst
    exact absurd hst (List.not_mem_nil st)
  | succ n ihn =>
    intro cur2 hf hpre st hst
    rw [scanFrom_eq] at hst
    by_cases h : cur2 < line.length
    · rw [if_pos h] at hst
      have h1le := le_skipBlocked line cur2
      have h2le := le_skipOpen line (skipBlocked line cur2)
      rcases List.mem_append.1 hst with h1 | h2
      · by_cases he : skipBlocked line cur2 = skipOpen line (skipBlocked line cur2)
        · rw [if_pos he] at h1
          exact absurd h1 (List.not_mem_nil st)
        · rw [if_neg he] at h1
          rcases List.mem_singleton.1 h1 with rfl
          rcases Nat.eq_or_lt_of_le h1le with heq | hlt
          · rcases hpre with rfl | hbig | hblk
            · exact Or.inl heq.symm
            · omega
            · rw [← heq]
              rcases Nat.eq_zero_or_pos cur2 with hz | hp
              · exact Or.inl hz
              · exact Or.inr hblk
          · exact Or.inr
              (skipBlocked_mid line cur2 (skipBlocked line cur2 - 1) (by omega) (by omega))
      · apply ihn (skipOpen line (skipBlocked line cur2) + 1) (by omega) _ st h2
        rcases Nat.lt_or_ge (skipOpen line (skipBlocked line cur2)) line.length
          with hlt | hge2
        · right; right
          simpa using skipOpen_result line (skipBlocked line cur2) hlt
        · right; left
          omega
    · rw [if_neg h] at hst
      exact absurd hst (List.not_mem_nil st)

theorem scanFrom_pairwise (line : List Square) (cur : Nat) :
    (scanFrom line cur).Pairwise (fun a b => a.1 < b.1) := by
  suffices H : ∀ (fuel cur2 : Nat), line.length + 1 - cur2 ≤ fuel →
      (scanFrom line cur2).Pairwise (fun a b => a.1 < b.1) by
    exact H (line.length + 1) cur (by omega)
  intro fuel
  induction fuel with
  | zero =>
    intro cur2 hf
    rw [scanFrom_eq, if_neg (by omega)]
    exact List.Pairwise.nil
  | succ n ihn =>
    intro cur2 hf
    rw [scanFrom_eq]
    by_cases h : cur2 < line.length
    · rw [if_pos h]
      have h1le := le_skipBlocked line cur2
      have h2le := le_skipOpen line (skipBlocked line cur2)
      apply List.pairwise_append.2
      refine ⟨?_, ihn (skipOpen line (skipBlocked line cur2) + 1) (by omega), ?_⟩
      · split
        · exact List.Pairwise.nil
        · simp
      · intro a ha b hb
        have hbge := (scanFrom_mem line _ b hb).1
        by_cases he : skipBlocked line cur2 = skipOpen line (skipBlocked line cur2)
        · rw [if_pos he] at ha
          exact absurd ha (List.not_mem_nil a)
        · rw [if_neg he] at ha
          rcases List.mem_singleton.1 ha with rfl
          simp only
          omega
    · rw [if_neg h]
      exact List.Pairwise.nil

/-! ### Decomposing membership in the slot lists -/

theorem mem_lineSlots {line : List Square} {k : Nat} {c : SlotCoords}
    (h : c ∈ lineSlots line k) : c.k = k ∧ (c.start, c.stop) ∈ scanFrom line 0 := by
  unfold lineSlots at h
  rcases List.mem_map.1 h with ⟨st, hst, rfl⟩
  exact ⟨rfl, hst⟩

theorem mem_acrosses {g : GridT} {c : SlotCoords} (h : c ∈ (identify_slots g).1) :
    c.k < g.length ∧ (c.start, c.stop) ∈ scanFrom (rowOf g c.k) 0 := by
  unfold identify_slots at h
  simp only [List.mem_flatten, List.mem_map] at h
  rcases h with ⟨l, ⟨k, hk, rfl⟩, hc⟩
  rcases mem_lineSlots hc with ⟨hck, hst⟩
  subst hck
  exact ⟨List.mem_range.1 hk, hst⟩

theorem mem_downs {g : GridT} {c : SlotCoords} (h : c ∈ (identify_slots g).2) :
    c.k < gcols g ∧ (c.start, c.stop) ∈ scanFrom (colOf g c.k) 0 := by
  unfold identify_slots at h
  simp only [List.mem_flatten, List.mem_map] at h
  rcases h with ⟨l, ⟨k, hk, rfl⟩, hc⟩
  rcases mem_lineSlots hc with ⟨hck, hst⟩
  subst hck
  exact ⟨List.mem_range.1 hk, hst⟩

/-! ### Facts about row filling and parsing -/

theorem fillRow_ok_length (ncols : Nat) :
    ∀ (gs : List (List Char)) (j : Nat) (sq : List Square),
      fillRow ncols gs j = .ok sq → j + sq.length = ncols ∧ sq.length = gs.length := by
  intro gs
  induction gs with
  | nil =>
    intro j sq h
    simp only [fillRow] at h
    split at h
    · rcases Except.ok.inj h with rfl
      simpa using by omega
    · cases h
  | cons g rest ih =>
    intro j sq h
    simp only [fillRow] at h
    split at h
    · cases h
    · rcases g with - | ⟨c, - | ⟨c2, g2⟩⟩
      · cases h
      · cases hrec : fillRow ncols rest (j + 1) with
        | ok sq2 =>
          rw [hrec] at h
          rcases Except.ok.inj h with rfl
          have := ih (j + 1) sq2 hrec
          simp only [List.length_cons]
          omega
        | error e =>
          rw [hrec] at h
          cases h
      · cases h

theorem fillRow_ok_of (ncols : Nat) :
    ∀ (gs : List (List Char)) (j : Nat), (∀ g ∈ gs, ∃ c, g = [c]) →
      j + gs.length = ncols → ∃ sq, fillRow ncols gs j = .ok sq := by
  intro gs
  induction gs with
  | nil =>
    intro j _ hlen
    refine ⟨[], ?_⟩
    simp only [fillRow]
    rw [if_pos (by simp at hlen; omega)]
  | cons g rest ih =>
    intro j hsing hlen
    rcases hsing g (List.mem_cons_self g rest) with ⟨c, rfl⟩
    rcases ih (j + 1) (fun g hg => hsing g (List.mem_cons_of_mem _ hg)) (by simp at hlen; omega)
      with ⟨sq, hsq⟩
    refine ⟨squareOfChar c :: sq, ?_⟩
    simp only [fillRow]
    rw [if_neg (by simp at hlen; omega), hsq]

theorem fillRow_short (ncols : Nat) :
    ∀ (gs : List (List Char)) (j : Nat), j ≤ ncols →
      fillRow ncols gs j = .error .rowTooShort → j + gs.length < ncols := by
  intro gs
  induction gs with
  | nil =>
    intro j hle h
    simp only [fillRow] at h
    split at h
    · cases h
    · simp only [List.length_nil]
      omega
  | cons g rest ih =>
    intro j hle h
    simp only [fillRow] at h
    split at h
    · cases h
    · rcases g with - | ⟨c, - | ⟨c2, g2⟩⟩
      · cases h
      · cases hrec : fillRow ncols rest (j + 1) with
        | ok sq2 =>
          rw [hrec] at h
          cases h
        | error e =>
          rw [hrec] at h
          rcases Except.error.inj h with rfl
          have hne : j ≠ ncols := by assumption
          have := ih (j + 1) (by omega) hrec
          simp only [List.length_cons]
          omega
      · cases h

theorem fillRow_long (ncols : Nat) :
    ∀ (gs : List (List Char)) (j : Nat),
      fillRow ncols gs j = .error .rowTooLong → ncols < j + gs.length := by
  intro gs
  induction gs with
  | nil =>
    intro j h
    simp only [fillRow] at h
    split at h
    · cases h
    · cases h
  | cons g rest ih =>
    intro j h
    simp only [fillRow] at h
    split at h
    · have hje : j = ncols := by assumption
      simp only [List.length_cons]
      omega
    · rcases g with - | ⟨c, - | ⟨c2, g2⟩⟩
      · cases h
      · cases hrec : fillRow ncols rest (j + 1) with
        | ok sq2 =>
          rw [hrec] at h
          cases h
        | error e =>
          rw [hrec] at h
          rcases Except.error.inj h with rfl
          have := ih (j + 1) hrec
          simp only [List.length_cons]
          omega
      · cases h

theorem fillRow_multi (ncols : Nat) :
    ∀ (gs : List (List Char)) (j : Nat),
      fillRow ncols gs j = .error .multiCodepointGrapheme → ∃ g ∈ gs, 2 ≤ g.length := by
  intro gs
  induction gs with
  | nil =>
    intro j h
    simp only [fillRow] at h
    split at h
    · cases h
    · cases h
  | cons g rest ih =>
    intro j h
    simp only [fillRow] at h
    split at h
    · cases h
    · rcases g with - | ⟨c, - | ⟨c2, g2⟩⟩
      · cases h
      · cases hrec : fillRow ncols rest (j + 1) with
        | ok sq2 =>
          rw [hrec] at h
          cases h
        | error e =>
          rw [hrec] at h
          rcases Except.error.inj h with rfl
          rcases ih (j + 1) hrec with ⟨g0, hg0, hlen⟩
          exact ⟨g0, List.mem_cons_of_mem _ hg0, hlen⟩
      · refine ⟨c :: c2 :: g2, List.mem_cons_self _ _, ?_⟩
        simp only [List.length_cons]
        omega

theorem parseRows_ok_rows (ncols : Nat) :
    ∀ (rows : List (List Char)) (g : GridT), parseRows ncols rows = .ok g →
      ∀ r ∈ rows, ∃ sq, fillRow ncols (graphemes r) 0 = .ok sq := by
  intro rows
  induction rows with
  | nil =>
    intro g _ r hr
    exact absurd hr (List.not_mem_nil r)
  | cons r0 rest ih =>
    intro g h r hr
    simp only [parseRows] at h
    cases hfill : fillRow ncols (graphemes r0) 0 with
    | error e =>
      rw [hfill] at h
      cases h
    | ok sq =>
      rw [hfill] at h
      cases hrec : parseRows ncols rest with
      | error e =>
        rw [hrec] at h
        cases h
      | ok g2 =>
        rcases List.mem_cons.1 hr with rfl | hmem
        · exact ⟨sq, hfill⟩
        · exact ih g2 hrec r hmem

theorem parseRows_ok_lengths (ncols : Nat) :
    ∀ (rows : List (List Char)) (g : GridT), parseRows ncols rows = .ok g →
      g.length = rows.length ∧ ∀ row ∈ g, row.length = ncols := by
  intro rows
  induction rows with
  | nil =>
    intro g h
    simp only [parseRows] at h
    rcases Except.ok.inj h with rfl
    exact ⟨rfl, fun row hrow => absurd hrow (List.not_mem_nil row)⟩
  | cons r0 rest ih =>
    intro g h
    simp only [parseRows] at h
    cases hfill : fillRow ncols (graphemes r0) 0 with
    | error e =>
      rw [hfill] at h
      cases h
    | ok sq =>
      rw [hfill] at h
      cases hrec : parseRows ncols rest with
      | error e =>
        rw [hrec] at h
        cases h
      | ok g2 =>
        rw [hrec] at h
        rcases Except.ok.inj h with rfl
        rcases ih g2 hrec with ⟨hlen, hall⟩
        refine ⟨by simp [hlen], ?_⟩
        intro row hrow
        rcases List.mem_cons.1 hrow with rfl | hmem
        · have := fillRow_ok_length ncols (graphemes r0) 0 row hfill
          omega
        · exact hall row hmem

theorem parseRows_error (ncols : Nat) :
    ∀ (rows : List (List Char)) (e : ParseError), parseRows ncols rows = .error e →
      ∃ r ∈ rows, fillRow ncols (graphemes r) 0 = .error e := by
  intro rows
  induction rows with
  | nil =>
    intro e h
    simp only [parseRows] at h
    cases h
  | cons r0 rest ih =>
    intro e h
    simp only [parseRows] at h
    cases hfill : fillRow ncols (graphemes r0) 0 with
    | error e2 =>
      rw [hfill] at h
      rcases Except.error.inj h with rfl
      exact ⟨r0, List.mem_cons_self _ _, hfill⟩
    | ok sq =>
      rw [hfill] at h
      cases hrec : parseRows ncols rest with
      | error e2 =>
        rw [hrec] at h
        rcases Except.error.inj h with rfl
        rcases ih e2 hrec with ⟨r, hr, hfe⟩
        exact ⟨r, List.mem_cons_of_mem _ hr, hfe⟩
      | ok g2 =>
        rw [hrec] at h
        cases h

theorem parseRows_snoc_short (ncols : Nat) (hpos : 0 < ncols) :
    ∀ (rows : List (List Char)) (g : GridT), parseRows ncols rows = .ok g →
      parseRows ncols (rows ++ [[]]) = .error .rowTooShort := by
  intro rows
  induction rows with
  | nil =>
    intro g _
    simp only [List.nil_append, parseRows, graphemes, fillRow]
    rw [if_neg (by omega)]
  | cons r0 rest ih =>
    intro g h
    simp only [parseRows] at h
    cases hfill : fillRow ncols (graphemes r0) 0 with
    | error e =>
      rw [hfill] at h
      cases h
    | ok sq =>
      rw [hfill] at h
      cases hrec : parseRows ncols rest with
      | error e =>
        rw [hrec] at h
        cases h
      | ok g2 =>
        simp only [List.cons_append, parseRows, hfill, List.append_eq]
        rw [ih g2 hrec]

/-! ### Facts about newline splitting -/

theorem splitNL_ne_nil (s : List Char) : splitNL s ≠ [] := by
  cases s with
  | nil => simp [splitNL]
  | cons c rest =>
    simp only [splitNL]
    split
    · simp
    · split
      · simp
      · simp

theorem splitNL_snoc_newline (s : List Char) :
    splitNL (s ++ ['\n']) = splitNL s ++ [[]] := by
  induction s with
  | nil => simp [splitNL]
  | cons c rest ih =>
    simp only [List.cons_append, splitNL, List.append_eq]
    by_cases hc : c = '\n'
    · rw [if_pos hc, if_pos hc, ih]
      simp
    · rw [if_neg hc, if_neg hc, ih]
      cases hsp : splitNL rest with
      | nil => exact absurd hsp (splitNL_ne_nil rest)
      | cons r rs => simp

theorem splitNL_head_snoc (s : List Char) :
    (splitNL (s ++ ['\n'])).headD [] = (splitNL s).headD [] := by
  rw [splitNL_snoc_newline]
  cases hsp : splitNL s with
  | nil => exact absurd hsp (splitNL_ne_nil s)
  | cons r rs => simp

/-! ### Destructuring a successful parse -/

theorem parse_eq (s : List Char) :
    parse s =
      match parseRows ((graphemes ((splitNL s).headD [])).length) (splitNL s) with
      | .error e => .error e
      | .ok g => .ok (Puzzle.mk g (identify_slots g).1 (identify_slots g).2) := rfl

theorem parse_ok_elim {s : List Char} {p : Puzzle} (h : parse s = .ok p) :
    ∃ g, parseRows ((graphemes ((splitNL s).headD [])).length) (splitNL s) = .ok g ∧
      p = Puzzle.mk g (identify_slots g).1 (identify_slots g).2 := by
  rw [parse_eq] at h
  cases hpr : parseRows ((graphemes ((splitNL s).headD [])).length) (splitNL s) with
  | error e =>
    rw [hpr] at h
    cases h
  | ok g =>
    rw [hpr] at h
    exact ⟨g, rfl, (Except.ok.inj h).symm⟩

/-! ### Well-formedness of a puzzle -/

/-- Position `(r, c)` of the grid (blocked/`none` when out of range). -/
def cellAt (g : GridT) (r c : Nat) : Square := (g.getD r []).getD c none

/-- Structural invariant of every reachable `Puzzle`: the slot coordinate
lists point inside the grid and the grid is rectangular. -/
def Puzzle.WF (p : Puzzle) : Prop :=
  (∀ a ∈ p.acrosses, a.k < p.grid.length ∧ a.start < a.stop ∧
    a.stop ≤ (rowOf p.grid a.k).length) ∧
  (∀ d ∈ p.downs, d.k < gcols p.grid ∧ d.start < d.stop ∧ d.stop ≤ p.grid.length) ∧
  (∀ row ∈ p.grid, row.length = gcols p.grid)

theorem identify_slots_WF (g : GridT) (hrect : ∀ row ∈ g, row.length = gcols g) :
    (Puzzle.mk g (identify_slots g).1 (identify_slots g).2).WF := by
  refine ⟨?_, ?_, hrect⟩
  · intro a ha
    rcases mem_acrosses ha with ⟨hk, hst⟩
    have := scanFrom_mem (rowOf g a.k) 0 (a.start, a.stop) hst
    exact ⟨hk, this.2.1, this.2.2.1⟩
  · intro d hd
    rcases mem_downs hd with ⟨hk, hst⟩
    have := scanFrom_mem (colOf g d.k) 0 (d.start, d.stop) hst
    refine ⟨hk, this.2.1, ?_⟩
    have hlen : (colOf g d.k).length = g.length := by simp [colOf]
    show d.stop ≤ g.length
    omega

theorem parse_WF {s : List Char} {p : Puzzle} (h : parse s = .ok p) : p.WF := by
  rcases parse_ok_elim h with ⟨g, hpr, rfl⟩
  apply identify_slots_WF
  intro row hrow
  rcases parseRows_ok_lengths _ _ _ hpr with ⟨hlen, hall⟩
  have hne : g ≠ [] := by
    intro hg
    subst hg
    exact absurd hrow (List.not_mem_nil row)
  have hrow0 : (g.headD []).length = (graphemes ((splitNL s).headD [])).length := by
    cases g with
    | nil => exact absurd rfl hne
    | cons r0 g2 => exact hall r0 (List.mem_cons_self _ _)
  rw [hall row hrow]
  unfold gcols
  rw [hrow0]

/-! ### Ordering of the slot lists -/

/-- Strict row-major / column-major precedence of slot coordinates: an earlier
line, or the same line with a strictly earlier start. -/
def slotLex (a b : SlotCoords) : Prop := a.k < b.k ∨ (a.k = b.k ∧ a.start < b.start)

theorem flatten_lineSlots_pairwise (lines : Nat → List Square) (n : Nat) :
    (((List.range n).map (fun k => lineSlots (lines k) k)).flatten).Pairwise slotLex := by
  rw [List.pairwise_flatten]
  constructor
  · intro l hl
    rcases List.mem_map.1 hl with ⟨k, _, rfl⟩
    unfold lineSlots
    rw [List.pairwise_map]
    exact (scanFrom_pairwise (lines k) 0).imp (fun h => Or.inr ⟨rfl, h⟩)
  · rw [List.pairwise_map]
    refine (List.pairwise_lt_range n).imp ?_
    intro k1 k2 hlt a ha b hb
    have h1 := (mem_lineSlots ha).1
    have h2 := (mem_lineSlots hb).1
    exact Or.inl (by rw [h1, h2]; exact hlt)

theorem identify_slots_ordered (g : GridT) :
    (identify_slots g).1.Pairwise slotLex ∧ (identify_slots g).2.Pairwise slotLex :=
  ⟨flatten_lineSlots_pairwise (fun k => rowOf g k) g.length,
   flatten_lineSlots_pairwise (fun k => colOf g k) (gcols g)⟩

/-! ### Reading a slice of a line -/

theorem sliceSeg_getElem? (line : List Square) (start stop j : Nat) :
    getElem? (sliceSeg line start stop) j =
      if j < stop - start then getElem? line (start + j) else none := by
  unfold sliceSeg
  rw [List.getElem?_take]
  split
  · rw [List.getElem?_drop]
  · rfl

theorem sliceSeg_length (line : List Square) (start stop : Nat) :
    (sliceSeg line start stop).length = min (stop - start) (line.length - start) := by
  unfold sliceSeg
  rw [List.length_take, List.length_drop]

theorem sliceSeg_open {line : List Square} {start stop j : Nat}
    (hrun : ∀ t, start ≤ t → t < stop → line.getD t none ≠ none)
    (hj : j < (sliceSeg line start stop).length) :
    (sliceSeg line start stop).getD j none ≠ none := by
  rw [sliceSeg_length] at hj
  have hj1 : j < stop - start := by omega
  rw [List.getD_eq_getElem?_getD, sliceSeg_getElem?, if_pos hj1,
    ← List.getD_eq_getElem?_getD]
  exact hrun (start + j) (by omega) (by omega)

theorem getD_mem_of_lt {α} (l : List α) (i : Nat) (d : α) (h : i < l.length) :
    l.getD i d ∈ l := by
  rw [List.getD_eq_getElem?_getD, List.getElem?_eq_getElem h]
  simp only [Option.getD_some]
  exact List.getElem_mem h

/-- Decompose a successful `access`: which slot list served the request, the
served coordinates, and the returned slice. -/
theorem access_eq {p : Puzzle} {i : Nat} {sq : List Square}
    (h : p.access i = some sq) :
    (i < p.nacross ∧ p.acrosses.getD i ⟨0, 0, 0⟩ ∈ p.acrosses ∧
      sq = sliceSeg (rowOf p.grid (p.acrosses.getD i ⟨0, 0, 0⟩).k)
        (p.acrosses.getD i ⟨0, 0, 0⟩).start (p.acrosses.getD i ⟨0, 0, 0⟩).stop) ∨
    (¬ i < p.nacross ∧ i < p.nslots ∧
      p.downs.getD (i - p.nacross) ⟨0, 0, 0⟩ ∈ p.downs ∧
      sq = sliceSeg (colOf p.grid (p.downs.getD (i - p.nacross) ⟨0, 0, 0⟩).k)
        (p.downs.getD (i - p.nacross) ⟨0, 0, 0⟩).start
        (p.downs.getD (i - p.nacross) ⟨0, 0, 0⟩).stop) := by
  unfold Puzzle.access at h
  by_cases h1 : i < p.nacross
  · rw [if_pos h1] at h
    exact Or.inl ⟨h1, getD_mem_of_lt _ _ _ h1, (Option.some.inj h).symm⟩
  · rw [if_neg h1] at h
    by_cases h2 : i < p.nslots
    · rw [if_pos h2] at h
      have hidx : i - p.nacross < p.downs.length := by
        unfold Puzzle.nslots Puzzle.nacross Puzzle.ndown at h2
        unfold Puzzle.nacross at h1 ⊢
        omega
      exact Or.inr ⟨h1, h2, getD_mem_of_lt _ _ _ hidx, (Option.some.inj h).symm⟩
    · rw [if_neg h2] at h
      cases h

/-- C9: on a successfully parsed puzzle, every position below a slot view's
length holds an open square, so `Slot::index` always returns a letter and its
blocked-square panic branch is unreachable. -/
theorem slot_squares_open (s : List Char) (p : Puzzle) (i : Nat) (sq : List Square)
    (j : Nat) (hp : parse s = .ok p) (hacc : p.access i = some sq)
    (hj : j < sq.length) : Slot.index sq j ≠ none := by
  rcases parse_ok_elim hp with ⟨g, -, rfl⟩
  unfold Slot.index
  rcases access_eq hacc with ⟨h1, hmem, rfl⟩ | ⟨h1, h2, hmem, rfl⟩
  · rcases mem_acrosses hmem with ⟨-, hst⟩
    have hspec := scanFrom_mem _ 0 _ hst
    exact sliceSeg_open (fun t ht1 ht2 => hspec.2.2.2.1 t ht1 ht2) hj
  · rcases mem_downs hmem with ⟨-, hst⟩
    have hspec := scanFrom_mem _ 0 _ hst
    exact sliceSeg_open (fun t ht1 ht2 => hspec.2.2.2.1 t ht1 ht2) hj

theorem slot_squares_open_witness :
    Slot.index [some 'A', some 'B'] 0 ≠ none :=
  slot_squares_open ("AB").toList
    (Puzzle.mk [[some 'A', some 'B']] [⟨0, 2, 0⟩] [⟨0, 1, 0⟩, ⟨0, 1, 1⟩])
    0 [some 'A', some 'B'] 0 (by rfl) (by rfl) (by decide)

/-- C4: every across slot produced by extraction is a nonempty maximal run of
open squares in its row (blocked or out-of-grid on both ends), and every down
slot likewise in its column. -/
theorem slot_runs_maximal (g : GridT) (c : SlotCoords) :
    (c ∈ (identify_slots g).1 →
      c.start < c.stop ∧ c.stop ≤ (rowOf g c.k).length ∧
      (∀ j, c.start ≤ j → j < c.stop → (rowOf g c.k).getD j none ≠ none) ∧
      (c.start = 0 ∨ (rowOf g c.k).getD (c.start - 1) none = none) ∧
      (c.stop = (rowOf g c.k).length ∨ (rowOf g c.k).getD c.stop none = none)) ∧
    (c ∈ (identify_slots g).2 →
      c.start < c.stop ∧ c.stop ≤ (colOf g c.k).length ∧
      (∀ j, c.start ≤ j → j < c.stop → (colOf g c.k).getD j none ≠ none) ∧
      (c.start = 0 ∨ (colOf g c.k).getD (c.start - 1) none = none) ∧
      (c.stop = (colOf g c.k).length ∨ (colOf g c.k).getD c.stop none = none)) := by
  constructor
  · intro hmem
    rcases mem_acrosses hmem with ⟨-, hst⟩
    have hs := scanFrom_mem (rowOf g c.k) 0 _ hst
    have hl := scanFrom_left (rowOf g c.k) 0 (Or.inl rfl) _ hst
    exact ⟨hs.2.1, hs.2.2.1, hs.2.2.2.1, hl, hs.2.2.2.2⟩
  · intro hmem
    rcases mem_downs hmem with ⟨-, hst⟩
    have hs := scanFrom_mem (colOf g c.k) 0 _ hst
    have hl := scanFrom_left (colOf g c.k) 0 (Or.inl rfl) _ hst
    exact ⟨hs.2.1, hs.2.2.1, hs.2.2.2.1, hl, hs.2.2.2.2⟩

theorem slot_runs_maximal_witness :
    (rowOf [[some 'A', none, some 'B']] 0).getD 0 none ≠ none :=
  ((slot_runs_maximal [[some 'A', none, some 'B']] ⟨0, 1, 0⟩).1
    (by decide)).2.2.1 0 (by decide) (by decide)

/-- The 4×5 demonstration grid of the spec (§8) and the source's tests. -/
def demoGrid : List Char := (".ABC.\nDE.FG\nTROUT\n.MNO.").toList

/-- C2: slot extraction orders acrosses row-major and downs column-major
(strictly increasing `(k, start)` within each list), and on the demonstration
grid the eleven global slot indices read exactly
`ABC, DE, FG, TROUT, MNO, DT, AERM, B, ON, CFUO, GT` with five acrosses. -/
theorem slot_order_spec :
    (∀ g : GridT,
      (identify_slots g).1.Pairwise slotLex ∧ (identify_slots g).2.Pairwise slotLex) ∧
    (parse demoGrid).toOption.map
        (fun p => ((List.range p.nslots).map (fun i => (p.access i).bind readSquares),
          p.nacross, p.nslots)) =
      some ([some (("ABC").toList), some (("DE").toList), some (("FG").toList),
        some (("TROUT").toList), some (("MNO").toList), some (("DT").toList),
        some (("AERM").toList), some (("B").toList), some (("ON").toList),
        some (("CFUO").toList), some (("GT").toList)], 5, 11) := by
  refine ⟨fun g => identify_slots_ordered g, ?_⟩
  decide

/-- C6 evidence: building the lexicon from `cat` and `CAT` (which uppercase to
the same word) stores the word twice, and a fully blank slot query returns it
twice — duplicates are not collapsed by `Lexicon::from_words`, although its
own documentation calls the bucket a `HashSet`. -/
theorem lexicon_duplicates_eval :
    (Lexicon.from_words [("cat").toList, ("CAT").toList]).possible_answers
        [' ', ' ', ' '] = [("CAT").toList, ("CAT").toList] := by decide

/-- C7 evidence: on the demonstration puzzle (eleven slots), requesting slot
index `11` reaches the source's `panic!("The index is too large!")` branch
(modelled `none`) instead of returning an error value to the caller. -/
theorem access_out_of_range_eval :
    (parse demoGrid).toOption.map (fun p => (p.nslots, p.access 11)) =
      some (11, none) := by decide

/-! ### Error taxonomy of parsing -/

theorem parseRows_ok_of (ncols : Nat) :
    ∀ rows : List (List Char),
      (∀ r ∈ rows, ∃ sq, fillRow ncols (graphemes r) 0 = .ok sq) →
      ∃ g, parseRows ncols rows = .ok g := by
  intro rows
  induction rows with
  | nil => exact fun _ => ⟨[], rfl⟩
  | cons r0 rest ih =>
    intro h
    rcases h r0 (List.mem_cons_self _ _) with ⟨sq, hsq⟩
    rcases ih (fun r hr => h r (List.mem_cons_of_mem _ hr)) with ⟨g, hg⟩
    refine ⟨sq :: g, ?_⟩
    simp only [parseRows, hsq, hg]

theorem graphemesAux_ne_nil (l cur : List Char) : graphemesAux cur l ≠ [] := by
  induction l generalizing cur with
  | nil => simp [graphemesAux]
  | cons c rest ih =>
    simp only [graphemesAux]
    split
    · exact ih (c :: cur)
    · simp

theorem graphemes_ne_nil {l : List Char} (h : l ≠ []) : graphemes l ≠ [] := by
  cases l with
  | nil => exact absurd rfl h
  | cons c rest => exact graphemesAux_ne_nil rest [c]

/-- C5: each parse error implies its condition — `rowTooShort` a row with
fewer graphemes than the first row, `rowTooLong` a row with more,
`multiCodepointGrapheme` a cluster of at least two codepoints — and when no
condition holds (all rows have the first row's grapheme count, all clusters a
single codepoint) parsing succeeds with a fully rectangular grid; being a
single `Except` value, the result is all-or-nothing. -/
theorem parse_error_taxonomy (s : List Char) :
    (parse s = .error .rowTooShort →
      ∃ r ∈ splitNL s,
        (graphemes r).length < (graphemes ((splitNL s).headD [])).length) ∧
    (parse s = .error .rowTooLong →
      ∃ r ∈ splitNL s,
        (graphemes ((splitNL s).headD [])).length < (graphemes r).length) ∧
    (parse s = .error .multiCodepointGrapheme →
      ∃ r ∈ splitNL s, ∃ g ∈ graphemes r, 2 ≤ g.length) ∧
    ((∀ r ∈ splitNL s,
        (graphemes r).length = (graphemes ((splitNL s).headD [])).length ∧
        ∀ g ∈ graphemes r, g.length = 1) →
      ∃ p, parse s = .ok p ∧ p.grid.length = (splitNL s).length ∧
        ∀ row ∈ p.grid, row.length = (graphemes ((splitNL s).headD [])).length) := by
  have herr : ∀ e, parse s = .error e →
      parseRows ((graphemes ((splitNL s).headD [])).length) (splitNL s) = .error e := by
    intro e h
    rw [parse_eq] at h
    cases hpr : parseRows ((graphemes ((splitNL s).headD [])).length) (splitNL s) with
    | error e2 =>
      rw [hpr] at h
      injection h with h2
      subst h2
      rfl
    | ok g =>
      rw [hpr] at h
      cases h
  refine ⟨?_, ?_, ?_, ?_⟩
  · intro h
    rcases parseRows_error _ _ _ (herr _ h) with ⟨r, hr, hfill⟩
    have := fillRow_short _ _ _ (by omega) hfill
    exact ⟨r, hr, by omega⟩
  · intro h
    rcases parseRows_error _ _ _ (herr _ h) with ⟨r, hr, hfill⟩
    have := fillRow_long _ _ _ hfill
    exact ⟨r, hr, by omega⟩
  · intro h
    rcases parseRows_error _ _ _ (herr _ h) with ⟨r, hr, hfill⟩
    rcases fillRow_multi _ _ _ hfill with ⟨g, hg, hlen⟩
    exact ⟨r, hr, g, hg, hlen⟩
  · intro hall
    have hok : ∀ r ∈ splitNL s,
        ∃ sq, fillRow ((graphemes ((splitNL s).headD [])).length) (graphemes r) 0 = .ok sq := by
      intro r hr
      have hsing : ∀ g2 ∈ graphemes r, ∃ c, g2 = [c] := by
        intro g2 hg2
        have hl1 := (hall r hr).2 g2 hg2
        cases g2 with
        | nil => simp at hl1
        | cons c rest =>
          cases rest with
          | nil => exact ⟨c, rfl⟩
          | cons d rest2 => simp at hl1
      exact fillRow_ok_of _ _ 0 hsing (by rw [Nat.zero_add, (hall r hr).1])
    rcases parseRows_ok_of _ _ hok with ⟨g, hg⟩
    refine ⟨Puzzle.mk g (identify_slots g).1 (identify_slots g).2, ?_, ?_, ?_⟩
    · rw [parse_eq, hg]
    · exact (parseRows_ok_lengths _ _ _ hg).1
    · exact (parseRows_ok_lengths _ _ _ hg).2

theorem parse_error_taxonomy_witness :
    (∃ r ∈ splitNL (("AB\nC").toList),
      (graphemes r).length < (graphemes ((splitNL (("AB\nC").toList)).headD [])).length) ∧
    (∃ r ∈ splitNL (("AB\nCDE").toList),
      (graphemes ((splitNL (("AB\nCDE").toList)).headD [])).length < (graphemes r).length) ∧
    (∃ r ∈ splitNL (("èB").toList), ∃ g ∈ graphemes r, 2 ≤ g.length) ∧
    (∃ p, parse (("AB").toList) = .ok p ∧
      p.grid.length = (splitNL (("AB").toList)).length ∧
      ∀ row ∈ p.grid,
        row.length = (graphemes ((splitNL (("AB").toList)).headD [])).length) :=
  ⟨(parse_error_taxonomy (("AB\nC").toList)).1 (by rfl),
   (parse_error_taxonomy (("AB\nCDE").toList)).2.1 (by rfl),
   (parse_error_taxonomy (("èB").toList)).2.2.1 (by rfl),
   (parse_error_taxonomy (("AB").toList)).2.2.2 (by decide)⟩

/-! ### Trailing newlines -/

/-- C10 counterexample: the grid text `ab\nxyz` has a non-empty first row, yet
`ab\nxyz\n` fails with the row-too-long error (the oversized second row is hit
before the empty final row), not row-too-short as the claim states. -/
theorem trailing_newline_counterexample :
    (splitNL (("ab\nxyz").toList)).headD [] ≠ [] ∧
    parse (("ab\nxyz").toList ++ ['\n']) = .error .rowTooLong := by
  constructor
  · decide
  · rfl

/-- C10 (amended): for a grid text with a non-empty first row, appending a
trailing newline always makes parsing fail — so newline-terminated grid files
are never accepted — and when the original text itself parses successfully the
failure is specifically the row-too-short error (the empty final row
disagrees with the positive first-row column count). -/
theorem trailing_newline_rejected :
    (∀ s : List Char, (splitNL s).headD [] ≠ [] →
      (parse (s ++ ['\n'])).toOption = none) ∧
    (∀ (s : List Char) (p : Puzzle), parse s = .ok p → (splitNL s).headD [] ≠ [] →
      parse (s ++ ['\n']) = .error .rowTooShort) := by
  constructor
  · intro s hne
    cases hp : parse (s ++ ['\n']) with
    | error e => rfl
    | ok p =>
      exfalso
      rcases parse_ok_elim hp with ⟨g, hpr, -⟩
      have hmem : ([] : List Char) ∈ splitNL (s ++ ['\n']) := by
        rw [splitNL_snoc_newline]
        exact List.mem_append_right _ (List.mem_singleton.2 rfl)
      rcases parseRows_ok_rows _ _ _ hpr [] hmem with ⟨sq, hsq⟩
      have hlen := fillRow_ok_length _ _ _ _ hsq
      have hnil : graphemes ([] : List Char) = [] := rfl
      rw [hnil] at hlen
      have hpos : 0 < (graphemes ((splitNL (s ++ ['\n'])).headD [])).length := by
        rw [splitNL_head_snoc]
        have := graphemes_ne_nil hne
        cases hgr : graphemes ((splitNL s).headD []) with
        | nil => exact absurd hgr this
        | cons a b => simp
      simp only [List.length_nil] at hlen
      omega
  · intro s p hp hne
    rcases parse_ok_elim hp with ⟨g, hpr, -⟩
    have hpos : 0 < (graphemes ((splitNL s).headD [])).length := by
      have := graphemes_ne_nil hne
      cases hgr : graphemes ((splitNL s).headD []) with
      | nil => exact absurd hgr this
      | cons a b => simp
    have h2 := parseRows_snoc_short _ hpos (splitNL s) g hpr
    rw [parse_eq, splitNL_head_snoc, splitNL_snoc_newline, h2]

theorem trailing_newline_rejected_witness :
    (parse (("ab\nxyz").toList ++ ['\n'])).toOption = none ∧
    parse (("AB").toList ++ ['\n']) = .error .rowTooShort :=
  ⟨trailing_newline_rejected.1 (("ab\nxyz").toList) (by decide),
   trailing_newline_rejected.2 (("AB").toList)
     (Puzzle.mk [[some 'A', some 'B']] [⟨0, 2, 0⟩] [⟨0, 1, 0⟩, ⟨0, 1, 1⟩])
     (by rfl) (by decide)⟩

/-! ### Rejected fills -/

/-- C8: a fill value whose character count differs from the addressed slot's
length is rejected before any square is written (the source's length-check
comes first and aborts, modelled as a failed result); the original puzzle is a
value and remains untouched at every square. -/
theorem with_filled_slot_length_mismatch (p : Puzzle) (i : Nat) (value : List Char)
    (sq : List Square) (hacc : p.access i = some sq)
    (hne : value.length ≠ sq.length) : p.with_filled_slot i value = none := by
  simp only [Puzzle.with_filled_slot, hacc]
  rw [if_pos hne]

theorem with_filled_slot_length_mismatch_witness :
    (Puzzle.mk [[some 'A', some 'B']] [⟨0, 2, 0⟩]
        [⟨0, 1, 0⟩, ⟨0, 1, 1⟩]).with_filled_slot 0 (("XYZ").toList) = none :=
  with_filled_slot_length_mismatch _ 0 _ [some 'A', some 'B'] (by rfl) (by decide)

/-- C3 counterexample: slot 0 of the parsed grid `AB` has length 2 and the
two-character value `éA` matches that length, yet the fill aborts instead of
returning a filled puzzle: `char_indices` yields the byte offset 2 (not the
character position 1) for `A`, which is outside the 2-square view. -/
theorem with_filled_slot_multibyte_counterexample :
    (parse (("AB").toList)).toOption.map
        (fun p => ((p.access 0).map List.length,
          p.with_filled_slot 0 (("éA").toList))) =
      some (some 2, none) := by rfl

/-! ### ASCII characters and uppercasing -/

theorem charSize_ascii {c : Char} (h : isAsciiChar c = true) : charSize c = 1 := by
  simp only [isAsciiChar, decide_eq_true_eq] at h
  unfold charSize
  rw [if_pos h]

theorem utf8Len_ascii {w : List Char} (h : w.all isAsciiChar = true) :
    utf8Len w = w.length := by
  induction w with
  | nil => rfl
  | cons c rest ih =>
    rw [List.all_cons, Bool.and_eq_true] at h
    show charSize c + utf8Len rest = rest.length + 1
    rw [charSize_ascii h.1, ih h.2]
    omega

theorem toNat_ofNat_valid {n : Nat} (h : n < 55296) : (Char.ofNat n).toNat = n := by
  rw [Char.ofNat, dif_pos (Or.inl h)]
  rfl

theorem asciiUpper_toNat (c : Char) :
    (asciiUpper c).toNat =
      if 97 ≤ c.toNat ∧ c.toNat ≤ 122 then c.toNat - 32 else c.toNat := by
  unfold asciiUpper
  split
  · next h => rw [toNat_ofNat_valid (by omega)]
  · rfl

theorem asciiUpper_ascii {c : Char} (h : isAsciiChar c = true) :
    isAsciiChar (asciiUpper c) = true := by
  simp only [isAsciiChar, decide_eq_true_eq] at h ⊢
  rw [asciiUpper_toNat]
  split
  · omega
  · exact h

theorem asciiUpper_fix (c : Char) : asciiUpper (asciiUpper c) = asciiUpper c := by
  by_cases h : 97 ≤ c.toNat ∧ c.toNat ≤ 122
  · have ht : (asciiUpper c).toNat = c.toNat - 32 := by rw [asciiUpper_toNat, if_pos h]
    have hnot : ¬ (97 ≤ (asciiUpper c).toNat ∧ (asciiUpper c).toNat ≤ 122) := by
      rw [ht]
      omega
    conv_lhs => rw [asciiUpper]
    rw [if_neg hnot]
  · have he : asciiUpper c = c := by
      unfold asciiUpper
      rw [if_neg h]
    rw [he, he]

/-! ### Contents of the lexicon buckets -/

theorem appendAt_length : ∀ (bs : List (List (List Char))) (n : Nat) (w : List Char),
    (appendAt bs n w).length = bs.length := by
  intro bs
  induction bs with
  | nil => intro n w; rfl
  | cons b bs2 ih =>
    intro n w
    cases n with
    | zero => rfl
    | succ m => simpa [appendAt] using ih m w

theorem appendAt_getD_ne : ∀ (bs : List (List (List Char))) (n : Nat) (w : List Char)
    (L : Nat), L ≠ n → (appendAt bs n w).getD L [] = bs.getD L [] := by
  intro bs
  induction bs with
  | nil => intro n w L _; rfl
  | cons b bs2 ih =>
    intro n w L hne
    cases n with
    | zero =>
      cases L with
      | zero => exact absurd rfl hne
      | succ L2 => rfl
    | succ m =>
      cases L with
      | zero => rfl
      | succ L2 => exact ih m w L2 (by omega)

theorem appendAt_getD_eq : ∀ (bs : List (List (List Char))) (n : Nat) (w : List Char),
    n < bs.length → (appendAt bs n w).getD n [] = bs.getD n [] ++ [w] := by
  intro bs
  induction bs with
  | nil => intro n w h; simp at h
  | cons b bs2 ih =>
    intro n w h
    cases n with
    | zero => rfl
    | succ m => exact ih m w (by simpa using h)

theorem foldl_lexStep_length : ∀ (ws : List (List Char)) (bs : List (List (List Char))),
    (ws.foldl lexStep bs).length = bs.length := by
  intro ws
  induction ws with
  | nil => intro bs; rfl
  | cons w rest ih =>
    intro bs
    show (rest.foldl lexStep (lexStep bs w)).length = bs.length
    rw [ih]
    unfold lexStep
    split
    · exact appendAt_length bs _ _
    · rfl

theorem le_foldr_max : ∀ (l : List Nat) (x : Nat), x ∈ l → x ≤ l.foldr max 0 := by
  intro l
  induction l with
  | nil => intro x hx; exact absurd hx (List.not_mem_nil x)
  | cons a rest ih =>
    intro x hx
    rcases List.mem_cons.1 hx with rfl | hmem
    · rw [List.foldr_cons]
      exact Nat.le_max_left _ _
    · rw [List.foldr_cons]
      exact Nat.le_trans (ih x hmem) (Nat.le_max_right _ _)

theorem replicate_getD_nil (n L : Nat) :
    (List.replicate n ([] : List (List Char))).getD L [] = [] := by
  rw [List.getD_eq_getElem?_getD, List.getElem?_replicate]
  split
  · rfl
  · rfl

theorem from_words_buckets : ∀ (ws : List (List Char)) (bs : List (List (List Char))),
    (∀ w ∈ ws, w.all isAsciiChar = true → (w.map asciiUpper).length < bs.length) →
    ∀ L, (ws.foldl lexStep bs).getD L [] =
      bs.getD L [] ++
        (((ws.filter (fun w => w.all isAsciiChar)).map
          (fun w => w.map asciiUpper)).filter (fun w => w.length == L)) := by
  intro ws
  induction ws with
  | nil =>
    intro bs _ L
    simp
  | cons w rest ih =>
    intro bs hbnd L
    show (rest.foldl lexStep (lexStep bs w)).getD L [] = _
    by_cases ha : w.all isAsciiChar = true
    · have hupper_ascii : (w.map asciiUpper).all isAsciiChar = true := by
        rw [List.all_map]
        rw [List.all_eq_true] at ha ⊢
        exact fun c hc => asciiUpper_ascii (ha c hc)
      have hulen : utf8Len (w.map asciiUpper) = (w.map asciiUpper).length :=
        utf8Len_ascii hupper_ascii
      have hlt : (w.map asciiUpper).length < bs.length :=
        hbnd w (List.mem_cons_self _ _) ha
      have hstep : lexStep bs w = appendAt bs ((w.map asciiUpper).length) (w.map asciiUpper) := by
        unfold lexStep
        rw [if_pos ha, hulen]
      rw [hstep]
      have hbnd2 : ∀ w2 ∈ rest, w2.all isAsciiChar = true →
          (w2.map asciiUpper).length < (appendAt bs ((w.map asciiUpper).length) (w.map asciiUpper)).length := by
        intro w2 hw2 ha2
        rw [appendAt_length]
        exact hbnd w2 (List.mem_cons_of_mem _ hw2) ha2
      rw [ih _ hbnd2 L]
      have hfc : List.filter (fun w2 => w2.all isAsciiChar) (w :: rest) =
          w :: List.filter (fun w2 => w2.all isAsciiChar) rest := by
        rw [List.filter_cons]
        simp [ha]
      rw [hfc, List.map_cons, List.filter_cons]
      by_cases hL : (w.map asciiUpper).length = L
      · rw [if_pos (by simp [hL])]
        rw [← hL, appendAt_getD_eq bs _ _ hlt]
        simp
      · rw [if_neg (by simpa using hL), appendAt_getD_ne bs _ _ L (fun he => hL he.symm)]
    · have hstep : lexStep bs w = bs := by
        unfold lexStep
        rw [if_neg ha]
      have hfc : List.filter (fun w2 => w2.all isAsciiChar) (w :: rest) =
          List.filter (fun w2 => w2.all isAsciiChar) rest := by
        rw [List.filter_cons]
        simp [ha]
      rw [hstep, ih _ (fun w2 hw2 ha2 => hbnd w2 (List.mem_cons_of_mem _ hw2) ha2) L, hfc]

theorem words_by_length_from_words (ws : List (List Char)) (L : Nat) :
    (Lexicon.from_words ws).words_by_length L =
      ((ws.filter (fun w => w.all isAsciiChar)).map
        (fun w => w.map asciiUpper)).filter (fun w => w.length == L) := by
  have hbnd : ∀ w ∈ ws, w.all isAsciiChar = true →
      (w.map asciiUpper).length <
        (List.replicate ((ws.map utf8Len).foldr max 0 + 1)
          ([] : List (List Char))).length := by
    intro w hw ha
    rw [List.length_replicate, List.length_map, ← utf8Len_ascii ha]
    have := le_foldr_max (ws.map utf8Len) (utf8Len w) (List.mem_map_of_mem _ hw)
    omega
  have hlen : (Lexicon.from_words ws).words.length =
      (ws.map utf8Len).foldr max 0 + 1 := by
    show (ws.foldl lexStep _).length = _
    rw [foldl_lexStep_length, List.length_replicate]
  by_cases hL : (Lexicon.from_words ws).words.length ≤ L
  · unfold Lexicon.words_by_length
    rw [if_pos hL]
    have hempty : (Lexicon.from_words ws).empty_set = [] := rfl
    rw [hempty]
    symm
    rw [List.filter_eq_nil_iff]
    intro w hw
    rcases List.mem_map.1 hw with ⟨w0, hw0, rfl⟩
    rcases List.mem_filter.1 hw0 with ⟨hmem, ha⟩
    have h1 : (w0.map asciiUpper).length ≤ (ws.map utf8Len).foldr max 0 := by
      rw [List.length_map, ← utf8Len_ascii ha]
      exact le_foldr_max (ws.map utf8Len) (utf8Len w0) (List.mem_map_of_mem _ hmem)
    rw [hlen] at hL
    simp only [beq_iff_eq]
    omega
  · unfold Lexicon.words_by_length
    rw [if_neg hL]
    show (ws.foldl lexStep _).getD L [] = _
    rw [from_words_buckets ws _ hbnd L, replicate_getD_nil]
    rfl

/-- The bucket invariant: every word served for length `L` has exactly `L`
characters and is fixed under ASCII-uppercasing. -/
theorem bucket_words {ws : List (List Char)} {L : Nat} {w : List Char}
    (h : w ∈ (Lexicon.from_words ws).words_by_length L) :
    w.length = L ∧ ∀ c ∈ w, asciiUpper c = c := by
  rw [words_by_length_from_words] at h
  rcases List.mem_filter.1 h with ⟨hmem, hlen⟩
  rcases List.mem_map.1 hmem with ⟨w0, -, rfl⟩
  refine ⟨by simpa using hlen, ?_⟩
  intro c hc
  rcases List.mem_map.1 hc with ⟨c0, -, rfl⟩
  exact asciiUpper_fix c0

/-- On words of the slot's length that are fixed under uppercasing (the bucket
invariant), the source's matching loop agrees with the spec's matching rule. -/
theorem answerMatch_eq_specMatch : ∀ (slot w : List Char), slot.length = w.length →
    (∀ c ∈ w, asciiUpper c = c) → answerMatch slot w = specMatch slot w := by
  intro slot
  induction slot with
  | nil =>
    intro w hlen _
    cases w with
    | nil => rfl
    | cons c cs => simp at hlen
  | cons s ss ih =>
    intro w hlen hfix
    cases w with
    | nil => simp at hlen
    | cons c cs =>
      have hfixc : asciiUpper c = c := hfix c (List.mem_cons_self _ _)
      have hlen2 : ss.length = cs.length := by simpa using hlen
      have ihh := ih cs hlen2 (fun x hx => hfix x (List.mem_cons_of_mem _ hx))
      show (if s ≠ ' ' ∧ asciiUpper s ≠ c then false else answerMatch ss cs) = _
      have hspec : specMatch (s :: ss) (c :: cs) =
          ((s == ' ' || asciiUpper s == asciiUpper c) && specMatch ss cs) := by
        unfold specMatch
        simp only [List.length_cons, List.zip_cons_cons, List.all_cons, hlen2]
        simp [Bool.and_comm, Bool.and_assoc, Bool.and_left_comm]
      rw [hspec, ← ihh, hfixc]
      by_cases hs : s = ' '
      · rw [if_neg (by simp [hs])]
        simp [hs]
      · by_cases hu : asciiUpper s = c
        · rw [if_neg (by simp [hu])]
          simp [hu]
        · rw [if_pos ⟨hs, hu⟩]
          have h1 : (s == ' ') = false := by simpa using hs
          have h2 : (asciiUpper s == c) = false := by simpa using hu
          rw [h1, h2]
          rfl

/-- C1: for every lexicon built by  `Lexicon::from_words` and every slot view
(given as its characters, every slot square being open), `possible_answers`
returns exactly the members of the slot's length bucket that match the slot
position-by-position per the spec's rule (`specMatch`: a blank slot position
matches anything, a non-blank one must agree case-insensitively); every
returned word has the slot's length, and an absent bucket yields the empty
result. -/
theorem possible_answers_spec (ws : List (List Char)) (slot : List Char) :
    (Lexicon.from_words ws).possible_answers slot =
      ((Lexicon.from_words ws).words_by_length slot.length).filter
        (fun w => specMatch slot w) ∧
    (∀ w ∈ (Lexicon.from_words ws).possible_answers slot, w.length = slot.length) ∧
    ((Lexicon.from_words ws).words.length ≤ slot.length →
      (Lexicon.from_words ws).possible_answers slot = []) := by
  refine ⟨?_, ?_, ?_⟩
  · unfold Lexicon.possible_answers
    apply List.filter_congr
    intro w hw
    rcases bucket_words hw with ⟨hlen, hfix⟩
    exact answerMatch_eq_specMatch slot w hlen.symm hfix
  · intro w hw
    unfold Lexicon.possible_answers at hw
    exact (bucket_words (List.mem_filter.1 hw).1).1
  · intro h
    unfold Lexicon.possible_answers Lexicon.words_by_length
    rw [if_pos h]
    rfl

theorem possible_answers_spec_witness :
    (Lexicon.from_words [("cat").toList, ("dog").toList]).possible_answers
        [' ', 'a', 't'] =
      ((Lexicon.from_words [("cat").toList, ("dog").toList]).words_by_length 3).filter
        (fun w => specMatch [' ', 'a', 't'] w) :=
  (possible_answers_spec [("cat").toList, ("dog").toList] [' ', 'a', 't']).1

/-! ### Filling a slot with an ASCII value -/

theorem getD_set_ne {α} (l : List α) (i j : Nat) (a d : α) (h : i ≠ j) :
    (l.set i a).getD j d = l.getD j d := by
  rw [List.getD_eq_getElem?_getD, List.getD_eq_getElem?_getD, List.getElem?_set_ne h]

theorem getD_set_eq {α} (l : List α) (i : Nat) (a d : α) (h : i < l.length) :
    (l.set i a).getD i d = a := by
  rw [List.getD_eq_getElem?_getD, List.getElem?_set_self h, Option.getD_some]

theorem length_updAt : ∀ (l : List (List Square)) (n : Nat) (f : List Square → List Square),
    (updAt l n f).length = l.length := by
  intro l
  induction l with
  | nil => intro n f; rfl
  | cons x xs ih =>
    intro n f
    cases n with
    | zero => rfl
    | succ m => simpa [updAt] using ih m f

theorem getD_updAt_ne : ∀ (l : List (List Square)) (n : Nat) (f : List Square → List Square)
    (m : Nat), n ≠ m → (updAt l n f).getD m [] = l.getD m [] := by
  intro l
  induction l with
  | nil => intro n f m _; rfl
  | cons x xs ih =>
    intro n f m hne
    cases n with
    | zero =>
      cases m with
      | zero => exact absurd rfl hne
      | succ m2 => rfl
    | succ n2 =>
      cases m with
      | zero => rfl
      | succ m2 => exact ih n2 f m2 (by omega)

theorem getD_updAt_eq : ∀ (l : List (List Square)) (n : Nat) (f : List Square → List Square),
    n < l.length → (updAt l n f).getD n [] = f (l.getD n []) := by
  intro l
  induction l with
  | nil => intro n f h; simp at h
  | cons x xs ih =>
    intro n f h
    cases n with
    | zero => rfl
    | succ m => exact ih m f (by simpa using h)

theorem updAt_oob : ∀ (l : List (List Square)) (n : Nat) (f : List Square → List Square),
    l.length ≤ n → updAt l n f = l := by
  intro l
  induction l with
  | nil => intro n f _; rfl
  | cons x xs ih =>
    intro n f h
    cases n with
    | zero => simp at h
    | succ m =>
      show x :: updAt xs m f = x :: xs
      rw [ih m f (by simpa using h)]

theorem setCell_length (g : GridT) (r c : Nat) (v : Square) :
    (setCell g r c v).length = g.length := length_updAt g r _

theorem setCell_rowlen (g : GridT) (r c : Nat) (v : Square) (r2 : Nat) :
    ((setCell g r c v).getD r2 []).length = (g.getD r2 []).length := by
  unfold setCell
  by_cases hr : r = r2
  · subst hr
    by_cases hlt : r < g.length
    · rw [getD_updAt_eq g r _ hlt, List.length_set]
    · rw [updAt_oob g r _ (by omega)]
  · rw [getD_updAt_ne g r _ r2 hr]

theorem cellAt_setCell_ne (g : GridT) (r c : Nat) (v : Square) (r2 c2 : Nat)
    (h : ¬ (r = r2 ∧ c = c2)) : cellAt (setCell g r c v) r2 c2 = cellAt g r2 c2 := by
  unfold cellAt setCell
  by_cases hr : r = r2
  · subst hr
    have hc : c ≠ c2 := fun he => h ⟨rfl, he⟩
    by_cases hlt : r < g.length
    · rw [getD_updAt_eq g r _ hlt, getD_set_ne _ _ _ _ _ hc]
    · rw [updAt_oob g r _ (by omega)]
  · rw [getD_updAt_ne g r _ r2 hr]

theorem cellAt_setCell_eq (g : GridT) (r c : Nat) (v : Square)
    (hr : r < g.length) (hc : c < (g.getD r []).length) :
    cellAt (setCell g r c v) r c = v := by
  unfold cellAt setCell
  rw [getD_updAt_eq g r _ hr, getD_set_eq _ _ _ _ hc]

/-- The pure effect of the source's write loop on an all-ASCII value: write
`value`'s characters at view offsets `o`, `o+1`, …  (`writeSquares_ascii`
relates it to `writeSquares`). -/
def writeList (g : GridT) (cells : Nat → Nat × Nat) (o : Nat) : List Char → GridT
  | [] => g
  | c :: cs => writeList (setCell g (cells o).1 (cells o).2 (some c)) cells (o + 1) cs

theorem writeSquares_ascii : ∀ (value : List Char) (g : GridT)
    (cells : Nat → Nat × Nat) (len o : Nat),
    (∀ c ∈ value, charSize c = 1) → o + value.length ≤ len →
    writeSquares g cells len (charIndicesFrom o value) =
      some (writeList g cells o value) := by
  intro value
  induction value with
  | nil => intro g cells len o _ _; rfl
  | cons c cs ih =>
    intro g cells len o h1 hlen
    have hc : charSize c = 1 := h1 c (List.mem_cons_self _ _)
    show writeSquares g cells len ((o, c) :: charIndicesFrom (o + charSize c) cs) = _
    rw [hc]
    show (if o < len then _ else none) = _
    rw [if_pos (by simp only [List.length_cons] at hlen; omega)]
    exact ih _ cells len (o + 1) (fun x hx => h1 x (List.mem_cons_of_mem _ hx))
      (by simp only [List.length_cons] at hlen; omega)

theorem writeList_length : ∀ (value : List Char) (g : GridT)
    (cells : Nat → Nat × Nat) (o : Nat),
    (writeList g cells o value).length = g.length := by
  intro value
  induction value with
  | nil => intro g cells o; rfl
  | cons c cs ih =>
    intro g cells o
    show (writeList _ cells (o + 1) cs).length = _
    rw [ih, setCell_length]

theorem writeList_rowlen : ∀ (value : List Char) (g : GridT)
    (cells : Nat → Nat × Nat) (o r2 : Nat),
    ((writeList g cells o value).getD r2 []).length = (g.getD r2 []).length := by
  intro value
  induction value with
  | nil => intro g cells o r2; rfl
  | cons c cs ih =>
    intro g cells o r2
    show ((writeList _ cells (o + 1) cs).getD r2 []).length = _
    rw [ih, setCell_rowlen]

theorem writeList_cellAt_other : ∀ (value : List Char) (g : GridT)
    (cells : Nat → Nat × Nat) (o r2 c2 : Nat),
    (∀ t, t < value.length → cells (o + t) ≠ (r2, c2)) →
    cellAt (writeList g cells o value) r2 c2 = cellAt g r2 c2 := by
  intro value
  induction value with
  | nil => intro g cells o r2 c2 _; rfl
  | cons c cs ih =>
    intro g cells o r2 c2 h
    show cellAt (writeList _ cells (o + 1) cs) r2 c2 = _
    rw [ih _ cells (o + 1) r2 c2 (fun t ht => by
      have := h (t + 1) (by simpa using by omega)
      rwa [show o + (t + 1) = o + 1 + t by omega] at this)]
    apply cellAt_setCell_ne
    intro ⟨h1, h2⟩
    exact h 0 (by simp) (by rw [Nat.add_zero]; exact Prod.ext h1 h2)

theorem writeList_cellAt_hit : ∀ (value : List Char) (g : GridT)
    (cells : Nat → Nat × Nat) (o t : Nat),
    t < value.length →
    (∀ t2, t2 < value.length → t2 ≠ t → cells (o + t2) ≠ cells (o + t)) →
    (cells (o + t)).1 < g.length →
    (cells (o + t)).2 < (g.getD (cells (o + t)).1 []).length →
    cellAt (writeList g cells o value) (cells (o + t)).1 (cells (o + t)).2 =
      some (value.getD t ' ') := by
  intro value
  induction value with
  | nil => intro g cells o t ht _ _ _; simp at ht
  | cons c cs ih =>
    intro g cells o t ht hinj hb1 hb2
    cases t with
    | zero =>
      rw [Nat.add_zero] at hinj hb1 hb2 ⊢
      show cellAt (writeList _ cells (o + 1) cs) (cells o).1 (cells o).2 = some c
      rw [writeList_cellAt_other cs _ cells (o + 1) _ _ (fun t2 ht2 => by
        have := hinj (t2 + 1) (by simp only [List.length_cons]; omega) (by omega)
        rw [show o + (t2 + 1) = o + 1 + t2 by omega, Nat.add_zero] at this
        intro he
        exact this (by rw [he]))]
      exact cellAt_setCell_eq g _ _ _ hb1 hb2
    | succ t2 =>
      have harith : o + (t2 + 1) = o + 1 + t2 := by omega
      rw [harith] at hinj hb1 hb2 ⊢
      show cellAt (writeList (setCell g (cells o).1 (cells o).2 (some c)) cells (o + 1) cs)
        (cells (o + 1 + t2)).1 (cells (o + 1 + t2)).2 = some (cs.getD t2 ' ')
      apply ih _ cells (o + 1) t2 (by simp only [List.length_cons] at ht; omega)
        (fun u hu hne => by
          have := hinj (u + 1) (by simp only [List.length_cons]; omega) (by omega)
          rwa [show o + (u + 1) = o + 1 + u by omega] at this)
      · rw [setCell_length]
        exact hb1
      · rw [setCell_rowlen]
        exact hb2

theorem getElem?_eq_some_getD {α} (l : List α) (n : Nat) (d : α) (h : n < l.length) :
    getElem? l n = some (l.getD n d) := by
  rw [List.getD_eq_getElem?_getD, List.getElem?_eq_getElem h, Option.getD_some]

theorem sliceSeg_eq_map_some (line : List Square) (start stop : Nat) (value : List Char)
    (hlen : value.length = stop - start) (hstop : stop ≤ line.length)
    (hread : ∀ n, n < stop - start → line.getD (start + n) none = some (value.getD n ' ')) :
    sliceSeg line start stop = value.map some := by
  apply List.ext_getElem?
  intro n
  rw [sliceSeg_getElem?]
  by_cases hn : n < stop - start
  · rw [if_pos hn]
    have hb : start + n < line.length := by omega
    have hv : n < value.length := by omega
    rw [getElem?_eq_some_getD line (start + n) none hb, hread n hn, List.getElem?_map,
      getElem?_eq_some_getD value n ' ' hv]
    rfl
  · rw [if_neg hn, List.getElem?_map, List.getElem?_eq_none (by omega)]
    rfl

theorem colOf_getD (g : GridT) (k r : Nat) (h : r < g.length) :
    (colOf g k).getD r none = cellAt g r k := by
  unfold colOf cellAt
  rw [List.getD_eq_getElem?_getD, List.getElem?_map, getElem?_eq_some_getD g r [] h]
  rfl

/-- Grid positions covered by slot `i` (per the global addressing rule). -/
def Puzzle.cellInSlot (p : Puzzle) (i : Nat) (r c : Nat) : Prop :=
  if i < p.nacross then
    r = (p.acrosses.getD i ⟨0, 0, 0⟩).k ∧
      (p.acrosses.getD i ⟨0, 0, 0⟩).start ≤ c ∧ c < (p.acrosses.getD i ⟨0, 0, 0⟩).stop
  else
    c = (p.downs.getD (i - p.nacross) ⟨0, 0, 0⟩).k ∧
      (p.downs.getD (i - p.nacross) ⟨0, 0, 0⟩).start ≤ r ∧
      r < (p.downs.getD (i - p.nacross) ⟨0, 0, 0⟩).stop

theorem access_across (p : Puzzle) (i : Nat) (h : i < p.nacross) :
    p.access i = some (sliceSeg (rowOf p.grid (p.acrosses.getD i ⟨0, 0, 0⟩).k)
      (p.acrosses.getD i ⟨0, 0, 0⟩).start (p.acrosses.getD i ⟨0, 0, 0⟩).stop) := by
  unfold Puzzle.access
  rw [if_pos h]

theorem access_down (p : Puzzle) (i : Nat) (h1 : ¬ i < p.nacross) (h2 : i < p.nslots) :
    p.access i = some (sliceSeg (colOf p.grid (p.downs.getD (i - p.nacross) ⟨0, 0, 0⟩).k)
      (p.downs.getD (i - p.nacross) ⟨0, 0, 0⟩).start
      (p.downs.getD (i - p.nacross) ⟨0, 0, 0⟩).stop) := by
  unfold Puzzle.access
  rw [if_neg h1, if_pos h2]

/-- C3 (amended to values of single-byte characters): filling a valid slot
with an ASCII value of the slot's length succeeds and returns a new puzzle
whose slot `i` reads exactly `value`, whose slot lists are unchanged, and
whose grid agrees with the original outside the filled slot's squares; the
original puzzle is a value and is never modified. -/
theorem with_filled_slot_ascii_spec (p : Puzzle) (i : Nat) (value : List Char)
    (sq : List Square) (hwf : p.WF) (hacc : p.access i = some sq)
    (hascii : ∀ ch ∈ value, charSize ch = 1) (hlenv : value.length = sq.length) :
    ∃ q, p.with_filled_slot i value = some q ∧
      q.access i = some (value.map some) ∧
      q.acrosses = p.acrosses ∧ q.downs = p.downs ∧
      q.grid.length = p.grid.length ∧
      ∀ r c, ¬ p.cellInSlot i r c → cellAt q.grid r c = cellAt p.grid r c := by
  rcases access_eq hacc with ⟨h1, hmem, hsq⟩ | ⟨h1, h2, hmem, hsq⟩
  · -- the slot is an across slot
    set a := p.acrosses.getD i ⟨0, 0, 0⟩ with hadef
    rcases hwf.1 a hmem with ⟨hk, hss, hstop⟩
    have hsqlen : sq.length = a.stop - a.start := by
      rw [hsq, sliceSeg_length, Nat.min_def]
      split
      · rfl
      · omega
    have hvlen : value.length = a.stop - a.start := by omega
    have hcells := writeSquares_ascii value p.grid
      (fun j => (a.k, a.start + j)) (a.stop - a.start) 0 hascii (by omega)
    refine ⟨Puzzle.mk (writeList p.grid (fun j => (a.k, a.start + j)) 0 value)
      p.acrosses p.downs, ?_, ?_, rfl, rfl, writeList_length value p.grid _ 0, ?_⟩
    · simp only [Puzzle.with_filled_slot, hacc]
      rw [if_neg (not_not_intro hlenv), if_pos h1, ← hadef]
      show (writeSquares p.grid _ _ (charIndicesFrom 0 value)).map _ = _
      rw [hcells]
      rfl
    · rw [access_across (Puzzle.mk (writeList p.grid (fun j => (a.k, a.start + j)) 0 value)
        p.acrosses p.downs) i h1]
      show some (sliceSeg (rowOf (writeList p.grid (fun j => (a.k, a.start + j)) 0 value)
        a.k) a.start a.stop) = _
      congr 1
      apply sliceSeg_eq_map_some
      · exact hvlen
      · show a.stop ≤ ((writeList p.grid (fun j => (a.k, a.start + j)) 0 value).getD a.k []).length
        rw [writeList_rowlen]
        exact hstop
      · intro n hn
        have hhit := writeList_cellAt_hit value p.grid (fun j => (a.k, a.start + j)) 0 n
          (by omega)
          (fun t2 ht2 hne heq => by
            have := congrArg Prod.snd heq
            simp only [Nat.zero_add] at this
            exact hne (by omega))
          (by simpa using hk)
          (by
            simp only [Nat.zero_add]
            show a.start + n < (p.grid.getD a.k []).length
            have : a.stop ≤ (p.grid.getD a.k []).length := hstop
            omega)
        simp only [Nat.zero_add] at hhit
        exact hhit
    · intro r c hnis
      unfold Puzzle.cellInSlot at hnis
      rw [if_pos h1, ← hadef] at hnis
      show cellAt (writeList p.grid (fun j => (a.k, a.start + j)) 0 value) r c = _
      apply writeList_cellAt_other
      intro t ht heq
      have hfst := congrArg Prod.fst heq
      have hsnd := congrArg Prod.snd heq
      simp only [Nat.zero_add] at hfst hsnd
      exact hnis ⟨hfst.symm, by omega, by omega⟩
  · -- the slot is a down slot
    set a := p.downs.getD (i - p.nacross) ⟨0, 0, 0⟩ with hadef
    rcases hwf.2.1 a hmem with ⟨hk, hss, hstop⟩
    have hcollen : (colOf p.grid a.k).length = p.grid.length := by simp [colOf]
    have hsqlen : sq.length = a.stop - a.start := by
      rw [hsq, sliceSeg_length, Nat.min_def]
      split
      · rfl
      · omega
    have hvlen : value.length = a.stop - a.start := by omega
    have hcells := writeSquares_ascii value p.grid
      (fun j => (a.start + j, a.k)) (a.stop - a.start) 0 hascii (by omega)
    refine ⟨Puzzle.mk (writeList p.grid (fun j => (a.start + j, a.k)) 0 value)
      p.acrosses p.downs, ?_, ?_, rfl, rfl, writeList_length value p.grid _ 0, ?_⟩
    · simp only [Puzzle.with_filled_slot, hacc]
      rw [if_neg (not_not_intro hlenv), if_neg h1, ← hadef]
      show (writeSquares p.grid _ _ (charIndicesFrom 0 value)).map _ = _
      rw [hcells]
      rfl
    · rw [access_down (Puzzle.mk (writeList p.grid (fun j => (a.start + j, a.k)) 0 value)
        p.acrosses p.downs) i h1 h2]
      show some (sliceSeg (colOf (writeList p.grid (fun j => (a.start + j, a.k)) 0 value)
        a.k) a.start a.stop) = _
      congr 1
      apply sliceSeg_eq_map_some
      · exact hvlen
      · show a.stop ≤ (colOf (writeList p.grid (fun j => (a.start + j, a.k)) 0 value) a.k).length
        have : (colOf (writeList p.grid (fun j => (a.start + j, a.k)) 0 value) a.k).length =
            (writeList p.grid (fun j => (a.start + j, a.k)) 0 value).length := by
          simp [colOf]
        rw [this, writeList_length]
        omega
      · intro n hn
        have hrlt : a.start + n < (writeList p.grid (fun j => (a.start + j, a.k)) 0 value).length := by
          rw [writeList_length]
          omega
        rw [colOf_getD _ a.k (a.start + n) hrlt]
        have hrowlen : (p.grid.getD (a.start + n) []).length = gcols p.grid := by
          apply hwf.2.2
          exact getD_mem_of_lt p.grid (a.start + n) [] (by omega)
        have hhit := writeList_cellAt_hit value p.grid (fun j => (a.start + j, a.k)) 0 n
          (by omega)
          (fun t2 ht2 hne heq => by
            have := congrArg Prod.fst heq
            simp only [Nat.zero_add] at this
            exact hne (by omega))
          (by
            simp only [Nat.zero_add]
            show a.start + n < p.grid.length
            omega)
          (by
            simp only [Nat.zero_add]
            show a.k < (p.grid.getD (a.start + n) []).length
            omega)
        simp only [Nat.zero_add] at hhit
        exact hhit
    · intro r c hnis
      unfold Puzzle.cellInSlot at hnis
      rw [if_neg h1, ← hadef] at hnis
      show cellAt (writeList p.grid (fun j => (a.start + j, a.k)) 0 value) r c = _
      apply writeList_cellAt_other
      intro t ht heq
      have hfst := congrArg Prod.fst heq
      have hsnd := congrArg Prod.snd heq
      simp only [Nat.zero_add] at hfst hsnd
      exact hnis ⟨hsnd.symm, by omega, by omega⟩

theorem with_filled_slot_ascii_spec_witness :
    ∃ q, (Puzzle.mk [[some 'A', some 'B']] [⟨0, 2, 0⟩]
        [⟨0, 1, 0⟩, ⟨0, 1, 1⟩]).with_filled_slot 0 (("XY").toList) = some q ∧
      q.access 0 = some ((("XY").toList).map some) ∧
      q.acrosses = [⟨0, 2, 0⟩] ∧ q.downs = [⟨0, 1, 0⟩, ⟨0, 1, 1⟩] ∧
      q.grid.length = 1 ∧
      ∀ r c, ¬ (Puzzle.mk [[some 'A', some 'B']] [⟨0, 2, 0⟩]
          [⟨0, 1, 0⟩, ⟨0, 1, 1⟩]).cellInSlot 0 r c →
        cellAt q.grid r c = cellAt [[some 'A', some 'B']] r c :=
  with_filled_slot_ascii_spec _ 0 (("XY").toList) [some 'A', some 'B']
    (by unfold Puzzle.WF; decide) (by rfl) (by decide) (by decide)

theorem headD_eq_getD (l : List (List Square)) : l.headD [] = l.getD 0 [] := by
  cases l with
  | nil => rfl
  | cons x xs => rfl

theorem writeSquares_shape : ∀ (entries : List (Nat × Char)) (g : GridT)
    (cells : Nat → Nat × Nat) (len : Nat) (g2 : GridT),
    writeSquares g cells len entries = some g2 →
    g2.length = g.length ∧ ∀ r, (g2.getD r []).length = (g.getD r []).length := by
  intro entries
  induction entries with
  | nil =>
    intro g cells len g2 h
    rcases Option.some.inj h with rfl
    exact ⟨rfl, fun r => rfl⟩
  | cons e rest ih =>
    intro g cells len g2 h
    rcases e with ⟨j, ch⟩
    simp only [writeSquares] at h
    split at h
    · rcases ih _ cells len g2 h with ⟨hl, hr⟩
      refine ⟨by rw [hl, setCell_length], fun r => ?_⟩
      rw [hr r, setCell_rowlen]
    · cases h

/-- Well-formedness is preserved by a successful fill, so `Puzzle.WF` covers
every puzzle reachable from `parse` through chains of `with_filled_slot`. -/
theorem with_filled_slot_preserves_WF (p : Puzzle) (i : Nat) (value : List Char)
    (q : Puzzle) (hwf : p.WF) (h : p.with_filled_slot i value = some q) : q.WF := by
  have hshape : ∃ g2, q = Puzzle.mk g2 p.acrosses p.downs ∧
      g2.length = p.grid.length ∧
      ∀ r, (g2.getD r []).length = (p.grid.getD r []).length := by
    cases hacc : p.access i with
    | none =>
      simp only [Puzzle.with_filled_slot, hacc] at h
      cases h
    | some sq =>
      simp only [Puzzle.with_filled_slot, hacc] at h
      split at h
      · cases h
      · split at h
        · rcases Option.map_eq_some'.1 h with ⟨g2, hws, hq⟩
          rcases writeSquares_shape _ _ _ _ _ hws with ⟨hl, hr⟩
          exact ⟨g2, hq.symm, hl, hr⟩
        · rcases Option.map_eq_some'.1 h with ⟨g2, hws, hq⟩
          rcases writeSquares_shape _ _ _ _ _ hws with ⟨hl, hr⟩
          exact ⟨g2, hq.symm, hl, hr⟩
  rcases hshape with ⟨g2, rfl, hl, hr⟩
  have hg : gcols g2 = gcols p.grid := by
    unfold gcols
    rw [headD_eq_getD, headD_eq_getD, hr 0]
  refine ⟨?_, ?_, ?_⟩
  · intro a ha
    rcases hwf.1 a ha with ⟨hk, hss, hstop⟩
    refine ⟨by rw [show (Puzzle.mk g2 p.acrosses p.downs).grid = g2 from rfl, hl]; exact hk,
      hss, ?_⟩
    show a.stop ≤ (rowOf g2 a.k).length
    unfold rowOf at hstop ⊢
    rw [hr a.k]
    exact hstop
  · intro d hd
    rcases hwf.2.1 d hd with ⟨hk, hss, hstop⟩
    refine ⟨?_, hss, ?_⟩
    · show d.k < gcols g2
      rw [hg]
      exact hk
    · show d.stop ≤ g2.length
      omega
  · intro row hrow
    show row.length = gcols g2
    rw [hg]
    have hlt : ∀ r2, r2 < g2.length → (g2.getD r2 []).length = gcols p.grid := by
      intro r2 hr2
      rw [hr r2]
      exact hwf.2.2 _ (getD_mem_of_lt p.grid r2 [] (by omega))
    rcases List.mem_iff_getElem.1 hrow with ⟨n, hn, hrow2⟩
    have := hlt n hn
    rw [List.getD_eq_getElem?_getD, List.getElem?_eq_getElem hn, Option.getD_some] at this
    rw [hrow2] at this
    exact this
